import Mathlib

/-!
# Verification of the CodeMapFree diagram state engine

Shallow embedding of the webview state engine of the final iteration of the
repository (the large script in `part_001`), together with the geometry helpers
and the extension-side id allocator.  JavaScript objects keyed by block id are
modelled as association lists whose values are `Option CodeBlock` (a key can be
present with an `undefined` value after `obj[k] = undefined`); numbers holding
pixel coordinates are modelled as rationals; `String(n)` on a natural number is
modelled by an explicit decimal-rendering function.
-/

/-! ## Decimal strings: the model of JavaScript `String(n)` and `parseInt` -/

/-- The character for a decimal digit `d < 10` (`'0'` has code 48). -/
def jsDigitChar (d : Nat) : Char := Char.ofNat (48 + d)

/-- Digit list of `n` in base 10, most significant first; `fuel` bounds the
recursion depth (any `fuel > n` is enough, since `n / 10 < n` for `n ≥ 10`). -/
def natToStringAux : Nat → Nat → List Char
  | 0, _ => []
  | fuel + 1, n =>
    if n < 10 then [jsDigitChar n]
    else natToStringAux fuel (n / 10) ++ [jsDigitChar (n % 10)]

/-- Model of JavaScript `String(n)` for a non-negative integer `n`:
canonical decimal notation, no leading zeros. -/
def natToString (n : Nat) : String := ⟨natToStringAux (n + 1) n⟩

/-- Model of JavaScript `parseInt(s, 10)` on an all-digit string (the only way
the source applies it, guarded by the regular expression `^\d+$`). -/
def parseNat (s : String) : Nat :=
  s.data.foldl (fun a c => a * 10 + (c.toNat - 48)) 0

/-- Model of the test `/^\d+$/.test(s)`: one or more decimal digits. -/
def isNumericStr (s : String) : Bool :=
  decide (s.data ≠ []) && s.data.all (fun c => c.isDigit)

theorem jsDigitChar_toNat {d : Nat} (h : d < 10) : (jsDigitChar d).toNat = 48 + d := by
  interval_cases d <;> decide

theorem jsDigitChar_isDigit {d : Nat} (h : d < 10) : (jsDigitChar d).isDigit = true := by
  interval_cases d <;> decide

theorem parseNat_listAux (cs : List Char) (a : Nat) :
    cs.foldl (fun a c => a * 10 + (c.toNat - 48)) a =
      cs.foldl (fun a c => a * 10 + (c.toNat - 48)) 0 + a * 10 ^ cs.length := by
  induction cs generalizing a with
  | nil => simp
  | cons c t ih =>
    simp only [List.foldl_cons, List.length_cons]
    rw [ih (a * 10 + (c.toNat - 48)), ih (0 * 10 + (c.toNat - 48))]
    ring

theorem natToStringAux_ne_nil {fuel n : Nat} (h : 0 < fuel) :
    natToStringAux fuel n ≠ [] := by
  cases fuel with
  | zero => omega
  | succ f =>
    by_cases hn : n < 10 <;> simp [natToStringAux, hn]

theorem parseNat_natToStringAux {fuel n : Nat} (h : n < fuel) :
    (natToStringAux fuel n).foldl (fun a c => a * 10 + (c.toNat - 48)) 0 = n := by
  induction fuel generalizing n with
  | zero => omega
  | succ f ih =>
    by_cases hn : n < 10
    · simp [natToStringAux, hn, jsDigitChar_toNat hn]
    · have h10 : 10 ≤ n := by omega
      have hdiv : n / 10 < f := by
        have : n / 10 < n := Nat.div_lt_self (by omega) (by omega)
        omega
      simp only [natToStringAux, hn, if_false, List.foldl_append]
      rw [ih hdiv]
      simp only [List.foldl_cons, List.foldl_nil]
      rw [jsDigitChar_toNat (Nat.mod_lt n (by omega))]
      have := Nat.div_add_mod n 10
      omega

/-- `parseInt` is a left inverse of `String(·)`. -/
theorem parseNat_natToString (n : Nat) : parseNat (natToString n) = n := by
  unfold parseNat natToString
  exact parseNat_natToStringAux (Nat.lt_succ_self n)

theorem natToStringAux_all_digits {fuel n : Nat} :
    (natToStringAux fuel n).all (fun c => c.isDigit) = true := by
  induction fuel generalizing n with
  | zero => simp [natToStringAux]
  | succ f ih =>
    by_cases hn : n < 10
    · simp [natToStringAux, hn, jsDigitChar_isDigit hn]
    · simp only [natToStringAux, hn, if_false, List.all_append, Bool.and_eq_true]
      exact ⟨ih, by simp [jsDigitChar_isDigit (Nat.mod_lt n (by omega))]⟩

/-- `String(n)` passes the `/^\d+$/` test. -/
theorem isNumericStr_natToString (n : Nat) : isNumericStr (natToString n) = true := by
  unfold isNumericStr natToString
  simp only [Bool.and_eq_true, decide_eq_true_eq]
  exact ⟨natToStringAux_ne_nil (Nat.succ_pos n), natToStringAux_all_digits⟩

/-- `String(·)` is injective (via the `parseInt` round trip). -/
theorem natToString_injective {m n : Nat} (h : natToString m = natToString n) : m = n := by
  have := parseNat_natToString m
  rw [h, parseNat_natToString] at this
  omega

/-! ## JavaScript object model: association list with `Option` values -/

/-- A pinned code block, as stored in `codeMapData.codeMap` (persisted fields
`name`, `path`, `start_line`, `end_line`, `x`, `y`, `w`, `h`). -/
structure CodeBlock where
  name : String
  path : String
  start_line : Int
  end_line : Int
  x : Rat
  y : Rat
  w : Rat
  h : Rat
deriving DecidableEq, Repr

/-- The `codeMap` object: keys are block ids; a value of `none` models a key
whose stored value is `undefined` (created by `obj[k] = undefined`). -/
abbrev CodeMap := List (String × Option CodeBlock)

/-- Model of `obj[k]` for value access: `undefined` both when the key is
missing and when it maps to `undefined`. -/
def jsGet (cm : CodeMap) (k : String) : Option CodeBlock :=
  match cm.find? (fun p => decide (p.1 = k)) with
  | some p => p.2
  | none => none

/-- Model of `k in obj` / membership of `k` in `Object.keys(obj)`. -/
def hasKey (cm : CodeMap) (k : String) : Bool :=
  cm.any (fun p => decide (p.1 = k))

/-- Model of the assignment `obj[k] = v`: update in place when the key is
present, append otherwise. -/
def jsSet (cm : CodeMap) (k : String) (v : Option CodeBlock) : CodeMap :=
  if hasKey cm k then cm.map (fun p => if p.1 = k then (k, v) else p)
  else cm ++ [(k, v)]

/-- Model of `delete obj[k]`. -/
def jsDelete (cm : CodeMap) (k : String) : CodeMap :=
  cm.filter (fun p => decide ¬(p.1 = k))

theorem jsGet_nil (k : String) : jsGet [] k = none := rfl

theorem jsGet_cons (p : String × Option CodeBlock) (t : CodeMap) (k : String) :
    jsGet (p :: t) k = if p.1 = k then p.2 else jsGet t k := by
  by_cases h : p.1 = k <;> simp [jsGet, List.find?_cons, h]

theorem hasKey_cons (p : String × Option CodeBlock) (t : CodeMap) (k : String) :
    hasKey (p :: t) k = (decide (p.1 = k) || hasKey t k) := by
  simp [hasKey]

theorem jsGet_eq_none_of_not_hasKey {cm : CodeMap} {k : String}
    (h : hasKey cm k = false) : jsGet cm k = none := by
  induction cm with
  | nil => rfl
  | cons p t ih =>
    rw [hasKey_cons] at h
    rcases Bool.or_eq_false_iff.1 h with ⟨h1, h2⟩
    rw [jsGet_cons, if_neg (by simpa using h1)]
    exact ih h2

theorem jsGet_append (l1 l2 : CodeMap) (k : String) :
    jsGet (l1 ++ l2) k = if hasKey l1 k then jsGet l1 k else jsGet l2 k := by
  induction l1 with
  | nil => simp [hasKey]
  | cons p t ih =>
    rw [List.cons_append, jsGet_cons, jsGet_cons, hasKey_cons]
    by_cases hp : p.1 = k
    · simp [hp]
    · simp only [hp, if_false, decide_eq_true_eq, ih]
      simp [hp]

theorem jsDelete_cons (p : String × Option CodeBlock) (t : CodeMap) (k : String) :
    jsDelete (p :: t) k = if p.1 = k then jsDelete t k else p :: jsDelete t k := by
  by_cases h : p.1 = k <;> simp [jsDelete, List.filter_cons, h]

theorem jsGet_jsDelete (cm : CodeMap) (k k' : String) :
    jsGet (jsDelete cm k) k' = if k' = k then none else jsGet cm k' := by
  induction cm with
  | nil => by_cases h : k' = k <;> simp [jsGet, jsDelete, h]
  | cons p t ih =>
    rw [jsDelete_cons]
    by_cases hp : p.1 = k
    · rw [if_pos hp, ih, jsGet_cons]
      by_cases h : k' = k
      · simp [h]
      · rw [if_neg h, if_neg h, if_neg (fun hh : p.1 = k' => h (hh ▸ hp ▸ rfl))]
    · rw [if_neg hp, jsGet_cons, jsGet_cons, ih]
      by_cases hk : p.1 = k'
      · have h : ¬(k' = k) := fun hh => hp (hk.trans hh)
        simp [hk, h]
      · simp [hk]

theorem hasKey_jsDelete (cm : CodeMap) (k k' : String) :
    hasKey (jsDelete cm k) k' = if k' = k then false else hasKey cm k' := by
  induction cm with
  | nil => by_cases h : k' = k <;> simp [hasKey, jsDelete, h]
  | cons p t ih =>
    rw [jsDelete_cons]
    by_cases hp : p.1 = k
    · rw [if_pos hp, ih, hasKey_cons]
      by_cases h : k' = k
      · simp [h]
      · rw [if_neg h, if_neg h,
          decide_eq_false (fun hh : p.1 = k' => h (hh ▸ hp ▸ rfl))]
        simp
    · rw [if_neg hp, hasKey_cons, hasKey_cons, ih]
      by_cases hk : p.1 = k'
      · have h : ¬(k' = k) := fun hh => hp (hk.trans hh)
        simp [hk, h]
      · simp [hk]

/-- The in-place update `cm.map (fun p => if p.1 = k then (k, v) else p)`
performed by `jsSet` on a present key. -/
def jsReplace (cm : CodeMap) (k : String) (v : Option CodeBlock) : CodeMap :=
  cm.map (fun p => if p.1 = k then (k, v) else p)

theorem jsGet_jsReplace (cm : CodeMap) (k k' : String) (v : Option CodeBlock) :
    jsGet (jsReplace cm k v) k' =
      if k' = k then (if hasKey cm k then v else none) else jsGet cm k' := by
  induction cm with
  | nil => by_cases h : k' = k <;> simp [jsGet, jsReplace, hasKey, h]
  | cons p t ih =>
    show jsGet ((if p.1 = k then (k, v) else p) :: jsReplace t k v) k' = _
    by_cases hp : p.1 = k
    · rw [if_pos hp, jsGet_cons, hasKey_cons, jsGet_cons]
      by_cases h : k' = k
      · simp [h, hp]
      · have hne : ¬(k = k') := fun hh => h hh.symm
        have hpk : ¬(p.1 = k') := fun hh => h (hh ▸ hp ▸ rfl)
        simp [hne, h, hpk, ih]
    · rw [if_neg hp, jsGet_cons, hasKey_cons, jsGet_cons, ih]
      by_cases hk : p.1 = k'
      · have h : ¬(k' = k) := fun hh => hp (hk.trans hh)
        simp [hk, h]
      · by_cases h : k' = k <;> simp [hk, h, hp]

theorem jsGet_jsSet (cm : CodeMap) (k k' : String) (v : Option CodeBlock) :
    jsGet (jsSet cm k v) k' = if k' = k then v else jsGet cm k' := by
  unfold jsSet
  by_cases hmem : hasKey cm k
  · rw [if_pos hmem]
    show jsGet (jsReplace cm k v) k' = _
    rw [jsGet_jsReplace, if_pos hmem]
  · rw [if_neg hmem, jsGet_append]
    by_cases h : k' = k
    · subst h
      rw [if_neg (by simpa using hmem), if_pos rfl, jsGet_cons, if_pos rfl]
    · by_cases hk : hasKey cm k'
      · simp [hk, h]
      · have hcm : jsGet cm k' = none := jsGet_eq_none_of_not_hasKey (by simpa using hk)
        rw [if_neg (by simpa using hk), if_neg h, hcm, jsGet_cons,
          if_neg (fun hh : k = k' => h hh.symm)]
        rfl

theorem hasKey_iff_jsGetEntry (cm : CodeMap) (k : String) :
    hasKey cm k = true ↔ ∃ v, (k, v) ∈ cm := by
  simp only [hasKey, List.any_eq_true, decide_eq_true_eq]
  constructor
  · rintro ⟨p, hp, hk⟩
    exact ⟨p.2, by rwa [← hk, Prod.mk.eta]⟩
  · rintro ⟨v, hv⟩
    exact ⟨(k, v), hv, rfl⟩

theorem jsGet_isSome_mem {cm : CodeMap} {k : String} {b : CodeBlock}
    (h : jsGet cm k = some b) : (k, some b) ∈ cm := by
  unfold jsGet at h
  rcases hfind : cm.find? (fun p => decide (p.1 = k)) with _ | p
  · rw [hfind] at h; exact absurd h (by simp)
  · rw [hfind] at h
    have hmem := List.mem_of_find?_eq_some hfind
    have hk : p.1 = k := by
      have := List.find?_some hfind
      simpa using this
    have : p = (k, some b) := by
      rcases p with ⟨p1, p2⟩
      simp only at hk h
      rw [hk, h]
    rwa [this] at hmem

/-! ## Id allocation (`getNextNumericNameForPath`) -/

/-- Maximum over the purely-numeric block titles whose stored block is truthy,
`0` if there are none (the `maxNum` accumulation loop of
`getNextNumericNameForPath`; entries with a falsy block are skipped). -/
def maxNumericId (cm : CodeMap) : Nat :=
  cm.foldl
    (fun m p =>
      match p.2 with
      | none => m
      | some _ => if isNumericStr p.1 then max m (parseNat p.1) else m)
    0

/-- The `while (codeMapData.codeMap[name]) { next += 1; ... }` loop; `fuel`
bounds the iteration count.  Each iteration tests a distinct candidate key, so
any fuel exceeding the number of keys makes the cut-off branch unreachable. -/
def allocLoop (cm : CodeMap) : Nat → Nat → String
  | 0, next => natToString next
  | fuel + 1, next =>
    if (jsGet cm (natToString next)).isSome then allocLoop cm fuel (next + 1)
    else natToString next

/-- `getNextNumericNameForPath` (the `filePath` argument is unused by the
source body, which scans the whole document): `String(maxNum + 1)`,
incremented while the candidate key is occupied. -/
def getNextNumericName (cm : CodeMap) : String :=
  allocLoop cm (cm.length + 1) (maxNumericId cm + 1)

theorem maxNumericId_aux (cm : CodeMap) (a : Nat) :
    cm.foldl
        (fun m p =>
          match p.2 with
          | none => m
          | some _ => if isNumericStr p.1 then max m (parseNat p.1) else m)
        a =
      max a (maxNumericId cm) := by
  induction cm generalizing a with
  | nil => simp [maxNumericId]
  | cons p t ih =>
    rcases p with ⟨k, _ | b⟩
    · simp only [maxNumericId, List.foldl_cons]
      rw [ih, ih]
      simp
    · simp only [maxNumericId, List.foldl_cons]
      by_cases hn : isNumericStr k
      · simp only [hn, if_true]
        rw [ih, ih]
        simp only [Nat.zero_max]
        exact Nat.max_assoc a _ _
      · simp only [hn, if_false]
        rw [ih, ih]
        simp

/-- Every truthy numeric entry is bounded by `maxNumericId`. -/
theorem le_maxNumericId {cm : CodeMap} {k : String} {b : CodeBlock}
    (hmem : (k, some b) ∈ cm) (hnum : isNumericStr k = true) :
    parseNat k ≤ maxNumericId cm := by
  induction cm with
  | nil => cases hmem
  | cons p t ih =>
    rcases List.mem_cons.1 hmem with hh | hh
    · subst hh
      simp only [maxNumericId, List.foldl_cons, hnum, if_true]
      rw [maxNumericId_aux]
      simp only [Nat.zero_max]
      exact le_max_left _ _
    · rcases p with ⟨k', _ | b'⟩
      · simpa [maxNumericId] using ih hh
      · simp only [maxNumericId, List.foldl_cons]
        by_cases hn : isNumericStr k'
        · simp only [hn, if_true]
          rw [maxNumericId_aux]
          exact le_trans (ih hh) (le_max_right _ _)
        · simpa [maxNumericId, hn] using ih hh

/-- When every stored value is truthy, the candidate `String(maxNum + 1)` is
free, so the collision loop exits at once with it. -/
theorem getNextNumericName_eq (cm : CodeMap) :
    getNextNumericName cm = natToString (maxNumericId cm + 1) := by
  unfold getNextNumericName
  show allocLoop cm (cm.length + 1) (maxNumericId cm + 1) = _
  unfold allocLoop
  rcases hget : jsGet cm (natToString (maxNumericId cm + 1)) with _ | b
  · simp [hget]
  · exfalso
    have hmem := jsGet_isSome_mem hget
    have hle := le_maxNumericId hmem (isNumericStr_natToString _)
    rw [parseNat_natToString] at hle
    omega

/-- C9 helper: the allocated name is not a key of the map. -/
theorem getNextNumericName_fresh (cm : CodeMap) (hall : ∀ p ∈ cm, p.2.isSome = true) :
    hasKey cm (getNextNumericName cm) = false := by
  rw [getNextNumericName_eq cm]
  by_contra hcontra
  have hk : hasKey cm (natToString (maxNumericId cm + 1)) = true := by
    revert hcontra
    cases hasKey cm (natToString (maxNumericId cm + 1)) <;> simp
  rcases (hasKey_iff_jsGetEntry _ _).1 hk with ⟨v, hv⟩
  rcases v with _ | b
  · have := hall _ hv
    simp at this
  · have hle := le_maxNumericId hv (isNumericStr_natToString _)
    rw [parseNat_natToString] at hle
    omega

/-- **C1.** The spec claims the allocator returns the smallest positive integer
not used anywhere (so `{"2","3"}` should yield `"1"`); the code returns
`String(max + 1)`, which on ids `{"2","3"}` yields `"4"`. -/
theorem claim_C1_counterexample :
    getNextNumericName
        [("2", some ⟨"2", "a.py", 1, 2, 0, 0, 400, 300⟩),
         ("3", some ⟨"3", "a.py", 3, 4, 0, 0, 400, 300⟩)] = "4" ∧
      ("4" : String) ≠ "1" := by
  constructor
  · rfl
  · decide

/-- **C1 (amended).** The id allocated for a newly added or pasted block is
the smallest positive integer, written as a numeric string, strictly greater
than every numeric block id in the document (`String(max + 1)`, incremented
only while occupied) — not the smallest globally-unused integer; in
particular allocating into a document whose numeric ids are `{"2","3"}`
yields `"4"`. -/
theorem claim_C1_amended (cm : CodeMap) (_hall : ∀ p ∈ cm, p.2.isSome = true) :
    getNextNumericName cm = natToString (maxNumericId cm + 1) ∧
      (∀ k b, (k, some b) ∈ cm → isNumericStr k = true →
        parseNat k < parseNat (getNextNumericName cm)) := by
  refine ⟨getNextNumericName_eq cm, ?_⟩
  intro k b hmem hnum
  rw [getNextNumericName_eq cm, parseNat_natToString]
  exact Nat.lt_succ_of_le (le_maxNumericId hmem hnum)

theorem claim_C1_amended_witness :
    (∀ p ∈ ([("2", some ⟨"2", "a.py", 1, 2, 0, 0, 400, 300⟩)] : CodeMap),
        p.2.isSome = true) ∧
      getNextNumericName [("2", some ⟨"2", "a.py", 1, 2, 0, 0, 400, 300⟩)] =
        natToString (maxNumericId [("2", some ⟨"2", "a.py", 1, 2, 0, 0, 400, 300⟩)] + 1) :=
  ⟨by decide, (claim_C1_amended _ (by decide)).1⟩

/-- **C9.** The allocator returns `String(M + 1)` for `M` the maximum numeric
id (0 if none), incrementing only while occupied; hence the fresh id is
strictly greater than every numeric id present, and numeric ids freed by
deletion below the maximum are never reused. -/
theorem claim_C9 (cm : CodeMap) (hall : ∀ p ∈ cm, p.2.isSome = true) :
    getNextNumericName cm = natToString (maxNumericId cm + 1) ∧
      hasKey cm (getNextNumericName cm) = false ∧
      (∀ k b, (k, some b) ∈ cm → isNumericStr k = true →
        parseNat k < parseNat (getNextNumericName cm)) ∧
      (∀ k, isNumericStr k = true → parseNat k ≤ maxNumericId cm →
        getNextNumericName cm ≠ k ∨ k = natToString (maxNumericId cm + 1)) := by
  refine ⟨getNextNumericName_eq cm, getNextNumericName_fresh cm hall, ?_, ?_⟩
  · intro k b hmem hnum
    rw [getNextNumericName_eq cm, parseNat_natToString]
    exact Nat.lt_succ_of_le (le_maxNumericId hmem hnum)
  · intro k hnum hle
    by_cases hk : k = natToString (maxNumericId cm + 1)
    · exact Or.inr hk
    · refine Or.inl ?_
      rw [getNextNumericName_eq cm]
      exact fun hh => hk hh.symm

theorem claim_C9_witness :
    (∀ p ∈ ([("2", some ⟨"2", "a.py", 1, 2, 0, 0, 400, 300⟩),
             ("3", some ⟨"3", "a.py", 3, 4, 0, 0, 400, 300⟩)] : CodeMap),
        p.2.isSome = true) ∧
      hasKey
          [("2", some ⟨"2", "a.py", 1, 2, 0, 0, 400, 300⟩),
           ("3", some ⟨"3", "a.py", 3, 4, 0, 0, 400, 300⟩)]
          (getNextNumericName
            [("2", some ⟨"2", "a.py", 1, 2, 0, 0, 400, 300⟩),
             ("3", some ⟨"3", "a.py", 3, 4, 0, 0, 400, 300⟩)]) = false :=
  ⟨by decide, (claim_C9 _ (by decide)).2.1⟩

/-! ## Geometry / anchor resolver (`getAnchorPoint`, `getOffsetsFromClick`) -/

/-- The measured geometry a content click sees: the canvas bounding rectangle
and scroll offsets, and the block content area's bounding rectangle, extent
and scroll offsets.  All in client-pixel units, modelled as rationals. -/
structure AnchorGeom where
  canvasRectLeft : Rat
  canvasRectTop : Rat
  canvasScrollLeft : Rat
  canvasScrollTop : Rat
  contentRectLeft : Rat
  contentRectTop : Rat
  contentRectWidth : Rat
  contentRectHeight : Rat
  contentScrollLeft : Rat
  contentScrollTop : Rat
deriving DecidableEq, Repr

/-- `getAnchorPoint`: canvas coordinates of the anchor at content-relative
offset `(xOffset, yOffset)` — content origin in canvas space (visible corner
minus the content scroll) plus the offset. -/
def getAnchorPoint (g : AnchorGeom) (xOffset yOffset : Rat) : Rat × Rat :=
  (g.contentRectLeft - g.canvasRectLeft + g.canvasScrollLeft - g.contentScrollLeft + xOffset,
   g.contentRectTop - g.canvasRectTop + g.canvasScrollTop - g.contentScrollTop + yOffset)

/-- `getOffsetsFromClick`: content-relative offset of a click at client
coordinates `(clientX, clientY)` — click position relative to the visible
content corner plus the content scroll. -/
def getOffsetsFromClick (g : AnchorGeom) (clientX clientY : Rat) : Rat × Rat :=
  (clientX - g.contentRectLeft + g.contentScrollLeft,
   clientY - g.contentRectTop + g.contentScrollTop)

/-- Client point to canvas point, as used throughout the source
(e.g. the drag handler: `clientX - canvasRect.left + canvas.scrollLeft`). -/
def clientToCanvas (g : AnchorGeom) (clientX clientY : Rat) : Rat × Rat :=
  (clientX - g.canvasRectLeft + g.canvasScrollLeft,
   clientY - g.canvasRectTop + g.canvasScrollTop)

/-- **C6.** For every geometry (hence every block position, content scroll
offset and canvas scroll offset) and every click point inside the content
viewport, resolving the offset computed by `getOffsetsFromClick` through
`getAnchorPoint` yields exactly the canvas point of the click; the right-hand
side does not mention the content scroll, so the round trip is independent of
the block's scroll position. -/
theorem claim_C6 (g : AnchorGeom) (clientX clientY : Rat)
    (hx1 : g.contentRectLeft ≤ clientX)
    (hx2 : clientX ≤ g.contentRectLeft + g.contentRectWidth)
    (hy1 : g.contentRectTop ≤ clientY)
    (hy2 : clientY ≤ g.contentRectTop + g.contentRectHeight) :
    getAnchorPoint g (getOffsetsFromClick g clientX clientY).1
        (getOffsetsFromClick g clientX clientY).2 =
      clientToCanvas g clientX clientY := by
  unfold getAnchorPoint getOffsetsFromClick clientToCanvas
  refine Prod.ext ?_ ?_ <;> simp <;> ring

theorem claim_C6_witness :
    ((10 : Rat) ≤ 25 ∧ (25 : Rat) ≤ 10 + 400 ∧ (20 : Rat) ≤ 30 ∧ (30 : Rat) ≤ 20 + 300) ∧
      getAnchorPoint ⟨1, 2, 3, 4, 10, 20, 400, 300, 7, 8⟩
          (getOffsetsFromClick ⟨1, 2, 3, 4, 10, 20, 400, 300, 7, 8⟩ 25 30).1
          (getOffsetsFromClick ⟨1, 2, 3, 4, 10, 20, 400, 300, 7, 8⟩ 25 30).2 =
        clientToCanvas ⟨1, 2, 3, 4, 10, 20, 400, 300, 7, 8⟩ 25 30 :=
  ⟨by norm_num,
   claim_C6 ⟨1, 2, 3, 4, 10, 20, 400, 300, 7, 8⟩ 25 30
     (by norm_num) (by norm_num) (by norm_num) (by norm_num)⟩

/-! ## The webview state -/

/-- An arrow endpoint: a block id plus an offset relative to that block's
content origin. -/
structure AnchorPt where
  block : String
  x : Rat
  y : Rat
deriving DecidableEq, Repr

/-- An arrow: two anchors plus optional color and alpha (both optional in the
persisted format). -/
structure ArrowRec where
  fromAnchor : AnchorPt
  toAnchor : AnchorPt
  color : Option String
  alpha : Option Rat
deriving DecidableEq, Repr

/-- One history snapshot: `snapshotState()` deep-clones `codeMapData` and
stores the current `arrows` into it. -/
structure DocSnapshot where
  page_name : String
  codeMap : CodeMap
  arrows : List ArrowRec
deriving DecidableEq, Repr

/-- The mutable webview state: the document (`codeMapData` + `arrows`), the
history engine (`history`, `historyIndex`, `isApplyingHistory`) and the
interaction state used by the claims.  `selectedArrowIndex = -1` encodes "no
arrow selected"; `editingArrowEndpoint` carries an index and whether the
`from` endpoint is being edited. -/
structure WvState where
  page_name : String
  codeMap : CodeMap
  arrows : List ArrowRec
  history : List DocSnapshot
  historyIndex : Int
  isApplyingHistory : Bool
  arrowMode : Bool
  arrowStart : Option AnchorPt
  selectedArrowIndex : Int
  selectedBlockName : Option String
  editingArrowEndpoint : Option (Int × Bool)
  currentArrowColor : String
  currentArrowAlpha : Rat
deriving DecidableEq, Repr

/-- `snapshotState()`. -/
def snapshotState (st : WvState) : DocSnapshot :=
  ⟨st.page_name, st.codeMap, st.arrows⟩

/-- Replace the document part of the state by a snapshot (the body of
`applySnapshot`; `loadCodeBlocks` and `saveData` rebuild the view and persist
but do not change the modelled state, and `isApplyingHistory` is `true` only
during the call, reverting to `false` before it returns). -/
def restoreSnapshot (st : WvState) (d : DocSnapshot) : WvState :=
  { st with page_name := d.page_name, codeMap := d.codeMap, arrows := d.arrows }

/-- `recordSnapshot()`: truncate the redo tail, then push the current
document. -/
def recordSnapshot (st : WvState) : WvState :=
  let h :=
    if st.historyIndex < (st.history.length : Int) - 1 then
      st.history.take (st.historyIndex + 1).toNat
    else st.history
  { st with history := h ++ [snapshotState st], historyIndex := (h.length : Int) }

/-- `recordAndSave()`: `saveData` (external, no state change) plus
`recordSnapshot`, skipped while a snapshot is being applied. -/
def recordAndSave (st : WvState) : WvState :=
  if st.isApplyingHistory then st else recordSnapshot st

def canUndo (st : WvState) : Prop := 0 < st.historyIndex

def canRedo (st : WvState) : Prop :=
  0 ≤ st.historyIndex ∧ st.historyIndex < (st.history.length : Int) - 1

instance (st : WvState) : Decidable (canUndo st) := by unfold canUndo; infer_instance

instance (st : WvState) : Decidable (canRedo st) := by unfold canRedo; infer_instance

/-- `undo()`: decrement the cursor and restore that snapshot.  The lookup is
in range in every reachable state (the history invariant); out of range it is
modelled as restoring the current document. -/
def undo (st : WvState) : WvState :=
  if canUndo st then
    restoreSnapshot { st with historyIndex := st.historyIndex - 1 }
      (st.history.getD (st.historyIndex - 1).toNat (snapshotState st))
  else st

/-- `redo()`: increment the cursor and restore that snapshot. -/
def redo (st : WvState) : WvState :=
  if canRedo st then
    restoreSnapshot { st with historyIndex := st.historyIndex + 1 }
      (st.history.getD (st.historyIndex + 1).toNat (snapshotState st))
  else st

/-- A recorded mutation: any change of the document followed by
`recordAndSave()` (every externally-visible mutation in the source ends this
way). -/
def recordedMutation (f : DocSnapshot → DocSnapshot) (st : WvState) : WvState :=
  recordAndSave (restoreSnapshot st (f (snapshotState st)))

/-- Running a sequence of recorded mutations. -/
def applyMuts (fs : List (DocSnapshot → DocSnapshot)) (st : WvState) : WvState :=
  fs.foldl (fun s f => recordedMutation f s) st

/-- The documents successively produced by a mutation sequence (excluding the
starting document). -/
def docChain (d : DocSnapshot) : List (DocSnapshot → DocSnapshot) → List DocSnapshot
  | [] => []
  | f :: fs => f d :: docChain (f d) fs

/-- The final document of a mutation sequence. -/
def docFold (d : DocSnapshot) (fs : List (DocSnapshot → DocSnapshot)) : DocSnapshot :=
  fs.foldl (fun d f => f d) d

theorem snapshotState_restore (st : WvState) (d : DocSnapshot) :
    snapshotState (restoreSnapshot st d) = d := rfl

theorem docChain_length (d : DocSnapshot) (fs : List (DocSnapshot → DocSnapshot)) :
    (docChain d fs).length = fs.length := by
  induction fs generalizing d with
  | nil => rfl
  | cons f t ih => simp [docChain, ih]

theorem docChain_get_last (d : DocSnapshot) (fs : List (DocSnapshot → DocSnapshot)) :
    (d :: docChain d fs).get? fs.length = some (docFold d fs) := by
  induction fs generalizing d with
  | nil => rfl
  | cons f t ih =>
    show (d :: f d :: docChain (f d) t).get? (t.length + 1) = some (docFold d (f :: t))
    have := ih (f d)
    simpa [docFold, List.foldl_cons] using this

/-- One recorded mutation at the tip of the history: no truncation, one push. -/
theorem recordedMutation_eq (f : DocSnapshot → DocSnapshot) (st : WvState)
    (happ : st.isApplyingHistory = false)
    (hidx : st.historyIndex = (st.history.length : Int) - 1) :
    recordedMutation f st =
      { st with
          page_name := (f (snapshotState st)).page_name,
          codeMap := (f (snapshotState st)).codeMap,
          arrows := (f (snapshotState st)).arrows,
          history := st.history ++ [f (snapshotState st)],
          historyIndex := (st.history.length : Int) } := by
  unfold recordedMutation recordAndSave recordSnapshot restoreSnapshot snapshotState
  simp only [happ, Bool.false_eq_true, if_false, hidx]
  simp

/-- State after a full mutation sequence run from the tip of the history. -/
theorem applyMuts_spec (fs : List (DocSnapshot → DocSnapshot)) (st : WvState)
    (happ : st.isApplyingHistory = false)
    (hidx : st.historyIndex = (st.history.length : Int) - 1) :
    (applyMuts fs st).history = st.history ++ docChain (snapshotState st) fs ∧
      (applyMuts fs st).historyIndex = (st.history.length : Int) + fs.length - 1 ∧
      snapshotState (applyMuts fs st) = docFold (snapshotState st) fs ∧
      (applyMuts fs st).isApplyingHistory = false := by
  induction fs generalizing st with
  | nil =>
    refine ⟨by simp [applyMuts, docChain], by simp [applyMuts, hidx], by simp [applyMuts, docFold], by simp [applyMuts, happ]⟩
  | cons f t ih =>
    have hstep := recordedMutation_eq f st happ hidx
    have h1 : (recordedMutation f st).isApplyingHistory = false := by rw [hstep]; exact happ
    have h2 : (recordedMutation f st).historyIndex =
        ((recordedMutation f st).history.length : Int) - 1 := by
      rw [hstep]; simp
    have hrec := ih (recordedMutation f st) h1 h2
    have happly : applyMuts (f :: t) st = applyMuts t (recordedMutation f st) := by
      simp [applyMuts]
    have hsnap : snapshotState (recordedMutation f st) = f (snapshotState st) := by
      rw [hstep]; rfl
    have hhist : (recordedMutation f st).history =
        st.history ++ [f (snapshotState st)] := by rw [hstep]
    refine ⟨?_, ?_, ?_, ?_⟩
    · rw [happly, hrec.1, hhist, hsnap]
      simp [docChain]
    · rw [happly, hrec.2.1, hhist]
      simp only [List.length_append, List.length_cons, List.length_nil]
      push_cast
      ring
    · rw [happly, hrec.2.2.1, hsnap]
      simp [docFold]
    · rw [happly]
      exact hrec.2.2.2

/-- Iterated `undo` walks the cursor down the unchanged history. -/
theorem undo_iter_spec (j : Nat) (st : WvState) (n : Nat)
    (hidx : st.historyIndex = (n : Int))
    (hlt : n < st.history.length)
    (hj : j ≤ n)
    (hdoc : st.history.get? n = some (snapshotState st)) :
    (undo^[j] st).history = st.history ∧
      (undo^[j] st).historyIndex = ((n - j : Nat) : Int) ∧
      st.history.get? (n - j) = some (snapshotState (undo^[j] st)) ∧
      (undo^[j] st).isApplyingHistory = st.isApplyingHistory := by
  induction j generalizing st n with
  | zero =>
    refine ⟨rfl, ?_, ?_, rfl⟩
    · show st.historyIndex = ((n - 0 : Nat) : Int)
      rwa [Nat.sub_zero]
    · show st.history.get? (n - 0) = some (snapshotState st)
      rwa [Nat.sub_zero]
  | succ j ih =>
    have hn1 : 1 ≤ n := le_trans (Nat.succ_le_succ (Nat.zero_le j)) hj
    have hcan : canUndo st := by unfold canUndo; rw [hidx]; exact_mod_cast hn1
    have hi : (st.historyIndex - 1).toNat = n - 1 := by rw [hidx]; omega
    have hrange : n - 1 < st.history.length := by omega
    rcases hget : st.history.get? (n - 1) with _ | d
    · rw [List.get?_eq_get hrange] at hget
      exact absurd hget (by simp)
    · have hgetD : st.history.getD (st.historyIndex - 1).toNat (snapshotState st) = d := by
        rw [hi, List.getD_eq_get?, hget]
        rfl
      have hundo : undo st =
          restoreSnapshot { st with historyIndex := st.historyIndex - 1 } d := by
        unfold undo
        rw [if_pos hcan, hgetD]
      have hh1 : (undo st).history = st.history := by rw [hundo]; rfl
      have hh2 : (undo st).historyIndex = ((n - 1 : Nat) : Int) := by
        rw [hundo]
        show st.historyIndex - 1 = _
        rw [hidx]
        omega
      have hh3 : (undo st).isApplyingHistory = st.isApplyingHistory := by rw [hundo]; rfl
      have hh4 : snapshotState (undo st) = d := by rw [hundo]; rfl
      have hdoc2 : (undo st).history.get? (n - 1) = some (snapshotState (undo st)) := by
        rw [hh1, hget, hh4]
      have hrec := ih (undo st) (n - 1) hh2 (by rw [hh1]; omega) (by omega) hdoc2
      rw [Function.iterate_succ_apply]
      refine ⟨by rw [hrec.1, hh1], ?_, ?_, by rw [hrec.2.2.2, hh3]⟩
      · rw [hrec.2.1]
        congr 1
        omega
      · have heq : n - 1 - j = n - (j + 1) := by omega
        rw [← heq, ← hh1, hrec.2.2.1]

/-- Iterated `redo` walks the cursor back up the unchanged history. -/
theorem redo_iter_spec (j : Nat) (st : WvState) (n : Nat)
    (hidx : st.historyIndex = (n : Int))
    (hj : n + j < st.history.length)
    (hdoc : st.history.get? n = some (snapshotState st)) :
    (redo^[j] st).history = st.history ∧
      (redo^[j] st).historyIndex = ((n + j : Nat) : Int) ∧
      st.history.get? (n + j) = some (snapshotState (redo^[j] st)) ∧
      (redo^[j] st).isApplyingHistory = st.isApplyingHistory := by
  induction j generalizing st n with
  | zero =>
    refine ⟨rfl, ?_, ?_, rfl⟩
    · show st.historyIndex = ((n + 0 : Nat) : Int)
      rwa [Nat.add_zero]
    · show st.history.get? (n + 0) = some (snapshotState st)
      rwa [Nat.add_zero]
  | succ j ih =>
    have hlen : n + 1 < st.history.length := by omega
    have hcan : canRedo st := by
      unfold canRedo
      rw [hidx]
      refine ⟨by exact_mod_cast Nat.zero_le n, by omega⟩
    have hi : (st.historyIndex + 1).toNat = n + 1 := by rw [hidx]; omega
    rcases hget : st.history.get? (n + 1) with _ | d
    · rw [List.get?_eq_get hlen] at hget
      exact absurd hget (by simp)
    · have hgetD : st.history.getD (st.historyIndex + 1).toNat (snapshotState st) = d := by
        rw [hi, List.getD_eq_get?, hget]
        rfl
      have hredo : redo st =
          restoreSnapshot { st with historyIndex := st.historyIndex + 1 } d := by
        unfold redo
        rw [if_pos hcan, hgetD]
      have hh1 : (redo st).history = st.history := by rw [hredo]; rfl
      have hh2 : (redo st).historyIndex = ((n + 1 : Nat) : Int) := by
        rw [hredo]
        show st.historyIndex + 1 = _
        rw [hidx]
        omega
      have hh3 : (redo st).isApplyingHistory = st.isApplyingHistory := by rw [hredo]; rfl
      have hh4 : snapshotState (redo st) = d := by rw [hredo]; rfl
      have hdoc2 : (redo st).history.get? (n + 1) = some (snapshotState (redo st)) := by
        rw [hh1, hget, hh4]
      have hrec := ih (redo st) (n + 1) hh2 (by rw [hh1]; omega) hdoc2
      rw [Function.iterate_succ_apply]
      refine ⟨by rw [hrec.1, hh1], ?_, ?_, by rw [hrec.2.2.2, hh3]⟩
      · rw [hrec.2.1]
        congr 1
        omega
      · have heq : n + 1 + j = n + (j + 1) := by omega
        rw [← heq, ← hh1, hrec.2.2.1]

/-- `recordSnapshot` always yields the first `historyIndex + 1` entries
followed by the snapshot of the current document (the truncation branch and
the no-truncation branch agree on this form). -/
theorem recordSnapshot_history (st : WvState) :
    (recordSnapshot st).history =
      st.history.take (st.historyIndex + 1).toNat ++ [snapshotState st] := by
  unfold recordSnapshot
  by_cases hcond : st.historyIndex < (st.history.length : Int) - 1
  · simp [hcond]
  · simp only [hcond, if_false]
    have : st.history.take (st.historyIndex + 1).toNat = st.history := by
      apply List.take_of_length_le
      omega
    rw [this]

/-- **C2.** From the loaded state (one snapshot, cursor on it), after any `N`
recorded mutations: `undo` `N` times restores the loaded document; `redo` `N`
times restores the document after all `N` mutations; a recorded mutation after
`k` undos keeps only the first `N + 1 - k` history entries (dropping the `k`
discarded redo entries) before appending; `undo` at cursor `0` and `redo` at
the last entry leave the state unchanged. -/
theorem claim_C2 (fs : List (DocSnapshot → DocSnapshot)) (st0 : WvState)
    (hload : st0.history = [snapshotState st0])
    (hidx0 : st0.historyIndex = 0)
    (happ0 : st0.isApplyingHistory = false) :
    snapshotState (undo^[fs.length] (applyMuts fs st0)) = snapshotState st0 ∧
      snapshotState (redo^[fs.length] (undo^[fs.length] (applyMuts fs st0))) =
        snapshotState (applyMuts fs st0) ∧
      (∀ k, k ≤ fs.length → ∀ g : DocSnapshot → DocSnapshot,
        (recordedMutation g (undo^[k] (applyMuts fs st0))).history =
          (applyMuts fs st0).history.take (fs.length + 1 - k) ++
            [g (snapshotState (undo^[k] (applyMuts fs st0)))]) ∧
      (∀ s : WvState, s.historyIndex = 0 → undo s = s) ∧
      (∀ s : WvState, s.historyIndex = (s.history.length : Int) - 1 → redo s = s) := by
  have hidx' : st0.historyIndex = (st0.history.length : Int) - 1 := by
    rw [hload, hidx0]
    simp
  obtain ⟨hH, hI, hS, hA⟩ := applyMuts_spec fs st0 happ0 hidx'
  have hlen : (applyMuts fs st0).history.length = fs.length + 1 := by
    rw [hH, hload]
    simp [docChain_length]
  have hIN : (applyMuts fs st0).historyIndex = ((fs.length : Nat) : Int) := by
    rw [hI, hload]
    simp
  have hgetN : (applyMuts fs st0).history.get? fs.length =
      some (snapshotState (applyMuts fs st0)) := by
    rw [hH, hload, hS]
    simpa using docChain_get_last (snapshotState st0) fs
  have hU := undo_iter_spec fs.length (applyMuts fs st0) fs.length hIN
    (by rw [hlen]; omega) (le_refl _) hgetN
  have hget0 := hU.2.2.1
  rw [Nat.sub_self] at hget0
  have ha : snapshotState (undo^[fs.length] (applyMuts fs st0)) = snapshotState st0 := by
    have h0 := hget0
    rw [hH, hload] at h0
    simp only [List.singleton_append, List.get?_cons_zero, Option.some_inj] at h0
    exact h0.symm
  refine ⟨ha, ?_, ?_, ?_, ?_⟩
  · have hU0 : (undo^[fs.length] (applyMuts fs st0)).historyIndex = ((0 : Nat) : Int) := by
      have := hU.2.1
      rwa [Nat.sub_self] at this
    have hgetU : (undo^[fs.length] (applyMuts fs st0)).history.get? 0 =
        some (snapshotState (undo^[fs.length] (applyMuts fs st0))) := by
      rw [hU.1]
      exact hget0
    have hR := redo_iter_spec fs.length (undo^[fs.length] (applyMuts fs st0)) 0 hU0
      (by rw [hU.1, hlen]; omega) hgetU
    have h1 := hR.2.2.1
    rw [hU.1, Nat.zero_add, hgetN] at h1
    exact (Option.some_inj.1 h1).symm
  · intro k hk g
    have hUk := undo_iter_spec k (applyMuts fs st0) fs.length hIN
      (by rw [hlen]; omega) hk hgetN
    have happk : (undo^[k] (applyMuts fs st0)).isApplyingHistory = false := by
      rw [hUk.2.2.2]
      exact hA
    have hreceq : recordedMutation g (undo^[k] (applyMuts fs st0)) =
        recordSnapshot (restoreSnapshot (undo^[k] (applyMuts fs st0))
          (g (snapshotState (undo^[k] (applyMuts fs st0))))) := by
      unfold recordedMutation recordAndSave
      have hfalse : (restoreSnapshot (undo^[k] (applyMuts fs st0))
          (g (snapshotState (undo^[k] (applyMuts fs st0))))).isApplyingHistory = false := happk
      rw [hfalse]
      simp
    rw [hreceq, recordSnapshot_history]
    have e1 : (restoreSnapshot (undo^[k] (applyMuts fs st0))
        (g (snapshotState (undo^[k] (applyMuts fs st0))))).history =
        (applyMuts fs st0).history := hUk.1
    have e2 : (restoreSnapshot (undo^[k] (applyMuts fs st0))
        (g (snapshotState (undo^[k] (applyMuts fs st0))))).historyIndex =
        ((fs.length - k : Nat) : Int) := hUk.2.1
    rw [e1, e2, snapshotState_restore]
    congr 2
    omega
  · intro s hs
    have hno : ¬ canUndo s := by
      unfold canUndo
      rw [hs]
      omega
    unfold undo
    rw [if_neg hno]
  · intro s hs
    have hno : ¬ canRedo s := by
      unfold canRedo
      rw [hs]
      omega
    unfold redo
    rw [if_neg hno]

/-- A concrete freshly-loaded state for the C2 witness. -/
def loadedDocW : WvState :=
  { page_name := "CodeMap", codeMap := [], arrows := [],
    history := [⟨"CodeMap", [], []⟩], historyIndex := 0,
    isApplyingHistory := false, arrowMode := false, arrowStart := none,
    selectedArrowIndex := -1, selectedBlockName := none,
    editingArrowEndpoint := none, currentArrowColor := "#ff0000",
    currentArrowAlpha := 1 }

/-- Two concrete recorded mutations for the C2 witness. -/
def mutsW : List (DocSnapshot → DocSnapshot) :=
  [fun d => { d with page_name := "a" }, fun d => { d with page_name := "b" }]

theorem claim_C2_witness :
    (loadedDocW.history = [snapshotState loadedDocW] ∧
        loadedDocW.historyIndex = 0 ∧ loadedDocW.isApplyingHistory = false) ∧
      snapshotState (undo^[mutsW.length] (applyMuts mutsW loadedDocW)) =
        snapshotState loadedDocW :=
  ⟨⟨rfl, rfl, rfl⟩, (claim_C2 mutsW loadedDocW rfl rfl rfl).1⟩

/-! ## Document-level operations: `deleteBlock`, `selectArrow`,
`handleLineContentClick` -/

theorem recordAndSave_codeMap (st : WvState) :
    (recordAndSave st).codeMap = st.codeMap := by
  unfold recordAndSave recordSnapshot
  by_cases h : st.isApplyingHistory <;> simp [h]

theorem recordAndSave_arrows (st : WvState) :
    (recordAndSave st).arrows = st.arrows := by
  unfold recordAndSave recordSnapshot
  by_cases h : st.isApplyingHistory <;> simp [h]

theorem recordAndSave_arrowMode (st : WvState) :
    (recordAndSave st).arrowMode = st.arrowMode := by
  unfold recordAndSave recordSnapshot
  by_cases h : st.isApplyingHistory <;> simp [h]

theorem snapshotState_recordAndSave (st : WvState) :
    snapshotState (recordAndSave st) = snapshotState st := by
  unfold recordAndSave recordSnapshot snapshotState
  by_cases h : st.isApplyingHistory <;> simp [h]

theorem recordAndSave_history (st : WvState) (happ : st.isApplyingHistory = false) :
    (recordAndSave st).history =
      st.history.take (st.historyIndex + 1).toNat ++ [snapshotState st] := by
  unfold recordAndSave
  rw [happ]
  simp only [Bool.false_eq_true, if_false]
  exact recordSnapshot_history st

/-- `deleteBlock(blockName)`: no-op on a falsy entry, otherwise remove the
block, drop every arrow referencing it, and `recordAndSave()`
(`loadCodeBlocks` only re-renders). -/
def deleteBlock (st : WvState) (blockName : String) : WvState :=
  if (jsGet st.codeMap blockName).isSome then
    recordAndSave
      { st with
          codeMap := jsDelete st.codeMap blockName,
          arrows := st.arrows.filter
            (fun a => decide (a.fromAnchor.block ≠ blockName) &&
                      decide (a.toAnchor.block ≠ blockName)) }
  else st

/-- **C5.** Deleting a present block removes its key from the block map,
leaves no arrow referencing it at either endpoint, and the whole composite
step is recorded as exactly one appended history snapshot. -/
theorem claim_C5 (st : WvState) (B : String) (b : CodeBlock)
    (hpresent : jsGet st.codeMap B = some b)
    (happ : st.isApplyingHistory = false) :
    hasKey (deleteBlock st B).codeMap B = false ∧
      (∀ a ∈ (deleteBlock st B).arrows,
        a.fromAnchor.block ≠ B ∧ a.toAnchor.block ≠ B) ∧
      (deleteBlock st B).history =
        st.history.take (st.historyIndex + 1).toNat ++
          [snapshotState (deleteBlock st B)] := by
  have hsome : (jsGet st.codeMap B).isSome = true := by rw [hpresent]; rfl
  unfold deleteBlock
  rw [if_pos hsome]
  refine ⟨?_, ?_, ?_⟩
  · rw [recordAndSave_codeMap]
    show hasKey (jsDelete st.codeMap B) B = false
    rw [hasKey_jsDelete]
    simp
  · intro a ha
    rw [recordAndSave_arrows] at ha
    have := List.of_mem_filter ha
    simp only [Bool.and_eq_true, decide_eq_true_eq] at this
    exact this
  · have h3 := recordAndSave_history
      { st with
          codeMap := jsDelete st.codeMap B,
          arrows := st.arrows.filter
            (fun a => decide (a.fromAnchor.block ≠ B) &&
                      decide (a.toAnchor.block ≠ B)) } happ
    rw [h3, snapshotState_recordAndSave]

theorem claim_C5_witness :
    (jsGet [("1", some ⟨"1", "a.py", 1, 2, 0, 0, 400, 300⟩)] "1" =
        some ⟨"1", "a.py", 1, 2, 0, 0, 400, 300⟩ ∧
      ({ loadedDocW with
          codeMap := [("1", some ⟨"1", "a.py", 1, 2, 0, 0, 400, 300⟩)] } :
            WvState).isApplyingHistory = false) ∧
      hasKey
        (deleteBlock
          { loadedDocW with
              codeMap := [("1", some ⟨"1", "a.py", 1, 2, 0, 0, 400, 300⟩)] }
          "1").codeMap "1" = false :=
  ⟨⟨by decide, rfl⟩,
   (claim_C5
     { loadedDocW with
         codeMap := [("1", some ⟨"1", "a.py", 1, 2, 0, 0, 400, 300⟩)] }
     "1" ⟨"1", "a.py", 1, 2, 0, 0, 400, 300⟩ (by decide) rfl).1⟩

/-- JavaScript truthiness of an optional string (`undefined` and `""` are
falsy). -/
def jsTruthyStr : Option String → Bool
  | none => false
  | some s => decide (s ≠ "")

/-- `selectArrow(index)`: range-guarded; sets the selection, leaves endpoint
editing, synchronises the color/alpha panel from the arrow — writing the
panel color *into* the arrow when the arrow's color is falsy.  No
`recordAndSave`.  (The `arrows[index]` lookup succeeds whenever the range
guard passes; the unreachable failure is modelled as selection only.) -/
def selectArrow (st : WvState) (index : Int) : WvState :=
  if index < 0 ∨ (st.arrows.length : Int) ≤ index then st
  else
    match st.arrows.get? index.toNat with
    | none => { st with selectedArrowIndex := index, editingArrowEndpoint := none }
    | some a =>
      let arrows2 :=
        if jsTruthyStr a.color then st.arrows
        else st.arrows.set index.toNat { a with color := some st.currentArrowColor }
      let color2 :=
        match a.color with
        | some c => if c ≠ "" then c else st.currentArrowColor
        | none => st.currentArrowColor
      { st with
          selectedArrowIndex := index,
          editingArrowEndpoint := none,
          arrows := arrows2,
          currentArrowColor := color2,
          currentArrowAlpha := a.alpha.getD 1 }

/-- The arrow object built by the second click of the draw gesture. -/
def newArrowOf (st : WvState) (a0 : AnchorPt) (blockName : String)
    (xOffset yOffset : Rat) : ArrowRec :=
  ⟨⟨a0.block, a0.x, a0.y⟩, ⟨blockName, xOffset, yOffset⟩,
   some st.currentArrowColor, some st.currentArrowAlpha⟩

/-- `handleLineContentClick` of the final iteration, after the containing
block and the content-relative offsets of the click have been resolved: first
click stores the start anchor; a second click at the identical anchor is
ignored; otherwise the arrow is appended, selected, recorded, and only the
start anchor is cleared. -/
def handleLineContentClick (st : WvState) (blockName : String)
    (xOffset yOffset : Rat) : WvState :=
  match st.arrowStart with
  | none => { st with arrowStart := some ⟨blockName, xOffset, yOffset⟩ }
  | some a0 =>
    if a0.block = blockName ∧ a0.x = xOffset ∧ a0.y = yOffset then st
    else
      { recordAndSave
          (selectArrow
            { st with
                arrows := st.arrows ++ [newArrowOf st a0 blockName xOffset yOffset] }
            (((st.arrows ++ [newArrowOf st a0 blockName xOffset yOffset]).length :
                Int) - 1))
        with arrowStart := none }

/-- **C7.** A second click at the identical anchor (same block, same x and y
offset) is silently ignored: the entire state — arrow list, block map,
history — is unchanged and nothing is recorded. -/
theorem claim_C7 (st : WvState) (a0 : AnchorPt)
    (hstart : st.arrowStart = some a0) :
    handleLineContentClick st a0.block a0.x a0.y = st := by
  unfold handleLineContentClick
  rw [hstart]
  simp

theorem claim_C7_witness :
    ({ loadedDocW with arrowStart := some ⟨"1", 5, 10⟩ } : WvState).arrowStart =
        some ⟨"1", 5, 10⟩ ∧
      handleLineContentClick { loadedDocW with arrowStart := some ⟨"1", 5, 10⟩ }
          "1" 5 10 =
        { loadedDocW with arrowStart := some ⟨"1", 5, 10⟩ } :=
  ⟨rfl, claim_C7 { loadedDocW with arrowStart := some ⟨"1", 5, 10⟩ }
    ⟨"1", 5, 10⟩ rfl⟩

theorem list_set_concat_length {α : Type} (l : List α) (a b : α) :
    (l ++ [a]).set l.length b = l ++ [b] := by
  induction l with
  | nil => rfl
  | cons x t ih => simp [List.set, ih]

/-- `selectArrow` touches only the arrow list, the selection fields and the
color/alpha panel: document map, history and mode state are untouched. -/
theorem selectArrow_frame (st : WvState) (i : Int) :
    (selectArrow st i).codeMap = st.codeMap ∧
      (selectArrow st i).history = st.history ∧
      (selectArrow st i).historyIndex = st.historyIndex ∧
      (selectArrow st i).isApplyingHistory = st.isApplyingHistory ∧
      (selectArrow st i).arrowMode = st.arrowMode ∧
      (selectArrow st i).arrowStart = st.arrowStart ∧
      (selectArrow st i).page_name = st.page_name := by
  unfold selectArrow
  by_cases hg : (i < 0 ∨ (st.arrows.length : Int) ≤ i)
  · rw [if_pos hg]
    exact ⟨rfl, rfl, rfl, rfl, rfl, rfl, rfl⟩
  · rw [if_neg hg]
    rcases hget : st.arrows.get? i.toNat with _ | a <;> simp [hget]

/-- The arrow list after `selectArrow` at an in-range index. -/
theorem selectArrow_arrows (st : WvState) (i : Int) (a : ArrowRec)
    (hguard : ¬(i < 0 ∨ (st.arrows.length : Int) ≤ i))
    (hget : st.arrows.get? i.toNat = some a) :
    (selectArrow st i).arrows =
      if jsTruthyStr a.color then st.arrows
      else st.arrows.set i.toNat { a with color := some st.currentArrowColor } := by
  unfold selectArrow
  rw [if_neg hguard]
  simp only [hget]

/-- A state whose only arrow carries an empty-string color, for C10. -/
def stC10 : WvState :=
  { loadedDocW with
      arrows := [⟨⟨"1", 0, 0⟩, ⟨"1", 1, 1⟩, some "", some 1⟩] }

/-- **C10.** The claim exempts only arrows with *no* color field, but the code
tests truthiness: an arrow whose color is the empty string *has* a color
field, yet `selectArrow` overwrites it with the panel color, changing the
arrow list. -/
theorem claim_C10_counterexample :
    (stC10.arrows.get? 0 = some ⟨⟨"1", 0, 0⟩, ⟨"1", 1, 1⟩, some "", some 1⟩ ∧
        (⟨⟨"1", 0, 0⟩, ⟨"1", 1, 1⟩, some "", some 1⟩ : ArrowRec).color ≠ none) ∧
      (selectArrow stC10 0).arrows ≠ stC10.arrows := by
  constructor
  · exact ⟨rfl, by decide⟩
  · decide

/-- **C10 (amended).** For every in-range arrow index `i`, `selectArrow i`
leaves the block map, the history and the page name unchanged and records no
snapshot; the arrow list is unchanged except when the arrow at `i` has a
*falsy* color (missing or empty string), in which case the current panel
color is written into that arrow's color field. -/
theorem claim_C10_amended (st : WvState) (i : Int) (a : ArrowRec)
    (h0 : 0 ≤ i) (hlt : i < (st.arrows.length : Int))
    (hget : st.arrows.get? i.toNat = some a) :
    (selectArrow st i).codeMap = st.codeMap ∧
      (selectArrow st i).history = st.history ∧
      (selectArrow st i).historyIndex = st.historyIndex ∧
      (selectArrow st i).page_name = st.page_name ∧
      (selectArrow st i).arrows =
        (if jsTruthyStr a.color then st.arrows
         else st.arrows.set i.toNat { a with color := some st.currentArrowColor }) := by
  have hguard : ¬(i < 0 ∨ (st.arrows.length : Int) ≤ i) := by
    push_neg
    exact ⟨h0, hlt⟩
  obtain ⟨h1, h2, h3, _, _, _, h7⟩ := selectArrow_frame st i
  exact ⟨h1, h2, h3, h7, selectArrow_arrows st i a hguard hget⟩

theorem claim_C10_amended_witness :
    ((0 : Int) ≤ 0 ∧ (0 : Int) < (stC10.arrows.length : Int) ∧
        stC10.arrows.get? (0 : Int).toNat =
          some ⟨⟨"1", 0, 0⟩, ⟨"1", 1, 1⟩, some "", some 1⟩) ∧
      (selectArrow stC10 0).codeMap = stC10.codeMap :=
  ⟨⟨by decide, by decide, rfl⟩,
   (claim_C10_amended stC10 0 ⟨⟨"1", 0, 0⟩, ⟨"1", 1, 1⟩, some "", some 1⟩
     (by decide) (by decide) rfl).1⟩

/-- **C8.** After the second click completes an arrow, the arrow is appended,
exactly one history snapshot of the new document is recorded, the controller
stays in arrow mode (the handler never clears `arrowMode`; only the explicit
toggle and Escape do), and only the pending start anchor is cleared. -/
theorem claim_C8 (st : WvState) (a0 : AnchorPt) (blockName : String) (x y : Rat)
    (hstart : st.arrowStart = some a0)
    (hmode : st.arrowMode = true)
    (happ : st.isApplyingHistory = false)
    (hne : ¬(a0.block = blockName ∧ a0.x = x ∧ a0.y = y)) :
    (handleLineContentClick st blockName x y).arrowMode = true ∧
      (handleLineContentClick st blockName x y).arrowStart = none ∧
      (handleLineContentClick st blockName x y).arrows =
        st.arrows ++ [newArrowOf st a0 blockName x y] ∧
      (handleLineContentClick st blockName x y).history =
        st.history.take (st.historyIndex + 1).toNat ++
          [⟨st.page_name, st.codeMap,
            st.arrows ++ [newArrowOf st a0 blockName x y]⟩] := by
  have hred : handleLineContentClick st blockName x y =
      { recordAndSave
          (selectArrow
            { st with arrows := st.arrows ++ [newArrowOf st a0 blockName x y] }
            (((st.arrows ++ [newArrowOf st a0 blockName x y]).length : Int) - 1))
        with arrowStart := none } := by
    unfold handleLineContentClick
    rw [hstart]
    exact if_neg hne
  have hguard :
      ¬((((st.arrows ++ [newArrowOf st a0 blockName x y]).length : Int) - 1) < 0 ∨
        ((({ st with arrows := st.arrows ++ [newArrowOf st a0 blockName x y] } :
            WvState).arrows.length : Int) ≤
          (((st.arrows ++ [newArrowOf st a0 blockName x y]).length : Int) - 1))) := by
    show ¬(_ ∨ (((st.arrows ++ [newArrowOf st a0 blockName x y]).length : Int) ≤ _))
    simp only [List.length_append, List.length_cons, List.length_nil]
    push_cast
    omega
  have htoNat :
      ((((st.arrows ++ [newArrowOf st a0 blockName x y]).length : Int) - 1)).toNat =
        st.arrows.length := by
    simp only [List.length_append, List.length_cons, List.length_nil]
    omega
  have hget : ({ st with arrows := st.arrows ++ [newArrowOf st a0 blockName x y] } :
      WvState).arrows.get?
        ((((st.arrows ++ [newArrowOf st a0 blockName x y]).length : Int) - 1)).toNat =
      some (newArrowOf st a0 blockName x y) := by
    show (st.arrows ++ [newArrowOf st a0 blockName x y]).get? _ = _
    rw [htoNat]
    exact List.get?_concat_length _ _
  have harrows :
      (selectArrow
        { st with arrows := st.arrows ++ [newArrowOf st a0 blockName x y] }
        (((st.arrows ++ [newArrowOf st a0 blockName x y]).length : Int) - 1)).arrows =
      st.arrows ++ [newArrowOf st a0 blockName x y] := by
    rw [selectArrow_arrows _ _ (newArrowOf st a0 blockName x y) hguard hget]
    have hcol : ({ newArrowOf st a0 blockName x y with
        color := some st.currentArrowColor } : ArrowRec) =
        newArrowOf st a0 blockName x y := rfl
    by_cases hcc : jsTruthyStr (newArrowOf st a0 blockName x y).color = true
    · rw [if_pos hcc]
    · rw [if_neg hcc]
      show (st.arrows ++ [newArrowOf st a0 blockName x y]).set _ _ = _
      rw [htoNat, hcol, list_set_concat_length]
  obtain ⟨hf1, hf2, hf3, hf4, hf5, hf6, hf7⟩ := selectArrow_frame
    { st with arrows := st.arrows ++ [newArrowOf st a0 blockName x y] }
    (((st.arrows ++ [newArrowOf st a0 blockName x y]).length : Int) - 1)
  have happ2 : (selectArrow
      { st with arrows := st.arrows ++ [newArrowOf st a0 blockName x y] }
      (((st.arrows ++ [newArrowOf st a0 blockName x y]).length : Int) - 1)).isApplyingHistory =
      false := by
    rw [hf4]
    exact happ
  rw [hred]
  refine ⟨?_, rfl, ?_, ?_⟩
  · show (recordAndSave _).arrowMode = true
    rw [recordAndSave_arrowMode, hf5]
    exact hmode
  · show (recordAndSave _).arrows = _
    rw [recordAndSave_arrows, harrows]
  · show (recordAndSave _).history = _
    rw [recordAndSave_history _ happ2, hf2, hf3]
    have hsnap : snapshotState
        (selectArrow
          { st with arrows := st.arrows ++ [newArrowOf st a0 blockName x y] }
          (((st.arrows ++ [newArrowOf st a0 blockName x y]).length : Int) - 1)) =
        ⟨st.page_name, st.codeMap,
          st.arrows ++ [newArrowOf st a0 blockName x y]⟩ := by
      unfold snapshotState
      rw [hf1, hf7, harrows]
    rw [hsnap]

theorem claim_C8_witness :
    (({ loadedDocW with arrowMode := true, arrowStart := some ⟨"1", 5, 10⟩ } :
          WvState).arrowStart = some ⟨"1", 5, 10⟩ ∧
        ({ loadedDocW with arrowMode := true, arrowStart := some ⟨"1", 5, 10⟩ } :
          WvState).arrowMode = true ∧
        ({ loadedDocW with arrowMode := true, arrowStart := some ⟨"1", 5, 10⟩ } :
          WvState).isApplyingHistory = false ∧
        ¬((⟨"1", 5, 10⟩ : AnchorPt).block = "1" ∧
          (⟨"1", 5, 10⟩ : AnchorPt).x = 6 ∧ (⟨"1", 5, 10⟩ : AnchorPt).y = 10)) ∧
      (handleLineContentClick
        { loadedDocW with arrowMode := true, arrowStart := some ⟨"1", 5, 10⟩ }
        "1" 6 10).arrowMode = true :=
  ⟨⟨rfl, rfl, rfl, by decide⟩,
   (claim_C8 { loadedDocW with arrowMode := true, arrowStart := some ⟨"1", 5, 10⟩ }
     ⟨"1", 5, 10⟩ "1" 6 10 rfl rfl rfl (by decide)).1⟩

/-! ## Z-order renumbering: `moveBlockToTop`, `moveBlockToBottom` -/

/-- The `forEach` loop of `moveBlockToTop` that collects the planned moves:
every iteration deep-clones the source entry, and a clone of `undefined`
throws, failing the whole operation. -/
def mapMOpt {α β : Type} (f : α → Option β) : List α → Option (List β)
  | [] => some []
  | a :: t =>
    match f a, mapMOpt f t with
    | some b, some r => some (b :: r)
    | _, _ => none

theorem mapMOpt_eq_some {α β : Type} (f : α → Option β) (l : List α)
    (h : ∀ a ∈ l, (f a).isSome = true) :
    ∃ r, mapMOpt f l = some r := by
  induction l with
  | nil => exact ⟨[], rfl⟩
  | cons a t ih =>
    rcases ih (fun x hx => h x (List.mem_cons_of_mem a hx)) with ⟨r, hr⟩
    have ha := h a (List.mem_cons_self a t)
    rcases hfa : f a with _ | b
    · rw [hfa] at ha
      exact absurd ha (by simp)
    · exact ⟨b :: r, by simp [mapMOpt, hfa, hr]⟩

theorem mapMOpt_length {α β : Type} {f : α → Option β} :
    ∀ {l : List α} {r : List β}, mapMOpt f l = some r → r.length = l.length := by
  intro l
  induction l with
  | nil => intro r h; cases h; rfl
  | cons a t ih =>
    intro r h
    unfold mapMOpt at h
    rcases hfa : f a with _ | b <;> rw [hfa] at h
    · exact absurd h (by simp)
    · rcases hmt : mapMOpt f t with _ | r' <;> rw [hmt] at h
      · exact absurd h (by simp)
      · cases h
        simp [ih hmt]

theorem mapMOpt_get {α β : Type} {f : α → Option β} :
    ∀ {l : List α} {r : List β}, mapMOpt f l = some r →
      ∀ i (hi : i < l.length) (hri : i < r.length),
        f (l.get ⟨i, hi⟩) = some (r.get ⟨i, hri⟩) := by
  intro l
  induction l with
  | nil => intro r _ i hi; exact absurd hi (by simp)
  | cons a t ih =>
    intro r h i hi hri
    unfold mapMOpt at h
    rcases hfa : f a with _ | b <;> rw [hfa] at h
    · exact absurd h (by simp)
    · rcases hmt : mapMOpt f t with _ | r' <;> rw [hmt] at h
      · exact absurd h (by simp)
      · cases h
        cases i with
        | zero => simpa using hfa
        | succ j =>
          exact ih hmt j (by simpa using hi) (by simpa using hri)

/-- In a `≤`-sorted list, every element is bounded by the last one. -/
theorem sorted_le_getLast {l : List Nat} {m : Nat}
    (hs : List.Sorted (fun a b => a ≤ b) l) (hl : l.getLast? = some m) :
    ∀ x ∈ l, x ≤ m := by
  induction l with
  | nil => cases hl
  | cons a t ih =>
    intro x hx
    cases t with
    | nil =>
      rcases List.mem_singleton.1 hx with rfl
      cases hl
      rfl
    | cons c t' =>
      rw [List.getLast?_cons_cons] at hl
      have hmmem : m ∈ c :: t' := by
        rcases List.mem_getLast?_eq_getLast (by rw [hl]; rfl) with ⟨hne, hm⟩
        rw [hm]
        exact List.getLast_mem hne
      rcases List.mem_cons.1 hx with rfl | hx'
      · exact List.rel_of_sorted_cons hs m hmmem
      · exact ih hs.of_cons hl x hx'

/-- In a strictly increasing list all of whose elements exceed `c`, the `i`-th
element exceeds `c + i`. -/
theorem strict_sorted_get_lower {l : List Nat}
    (hp : List.Pairwise (fun a b => a < b) l)
    (c : Nat) (hall : ∀ x ∈ l, c < x) :
    ∀ i (hi : i < l.length), c + i < l.get ⟨i, hi⟩ := by
  induction l generalizing c with
  | nil => intro i hi; exact absurd hi (by simp)
  | cons a t ih =>
    intro i hi
    cases i with
    | zero =>
      simpa using hall a (List.mem_cons_self a t)
    | succ j =>
      have hj : j < t.length := by simpa using hi
      have := ih (List.Pairwise.of_cons hp) a
        (fun x hx => (List.pairwise_cons.1 hp).1 x hx) j hj
      have hca : c < a := hall a (List.mem_cons_self a t)
      show c + (j + 1) < t.get ⟨j, hj⟩
      omega

/-- `find?` returns the unique satisfying element. -/
theorem find?_eq_some_of_unique {α : Type} :
    ∀ (l : List α) (p : α → Bool) (i : Nat) (hi : i < l.length),
      (∀ j (hj : j < l.length), (p (l.get ⟨j, hj⟩) = true ↔ j = i)) →
      l.find? p = some (l.get ⟨i, hi⟩) := by
  intro l
  induction l with
  | nil => intro p i hi; exact absurd hi (by simp)
  | cons a t ih =>
    intro p i hi h
    by_cases hpa : p a = true
    · have h0 := (h 0 (by simp)).1 hpa
      subst h0
      rw [List.find?_cons, hpa]
      rfl
    · have hne : ¬(0 = i) := fun hh => hpa ((h 0 (by simp)).2 hh)
      cases i with
      | zero => exact absurd rfl hne
      | succ i' =>
        have hi' : i' < t.length := by simpa using hi
        rw [List.find?_cons]
        rcases hb : p a
        · exact ih p i' hi' (fun j hj => by simpa using h (j + 1) (by simpa using hj))
        · exact absurd hb hpa

/-- Lookup of a member pair in a map with distinct keys. -/
theorem jsGet_of_mem {cm : CodeMap}
    (hnd : (cm.map (fun p => p.1)).Nodup)
    {k : String} {v : Option CodeBlock} (hmem : (k, v) ∈ cm) : jsGet cm k = v := by
  induction cm with
  | nil => cases hmem
  | cons p t ih =>
    rcases List.mem_cons.1 hmem with rfl | hmem'
    · rw [jsGet_cons, if_pos rfl]
    · have hk : k ∈ t.map (fun p => p.1) :=
        List.mem_map.2 ⟨(k, v), hmem', rfl⟩
      have hnd2 : p.1 ∉ t.map (fun p => p.1) ∧ (t.map (fun p => p.1)).Nodup := by
        rw [List.map_cons, List.nodup_cons] at hnd
        exact hnd
      have hp1 : ¬(p.1 = k) := fun hh => hnd2.1 (hh ▸ hk)
      rw [jsGet_cons, if_neg hp1]
      exact ih hnd2.2 hmem'

/-- Lookup after folding deletions. -/
theorem jsGet_foldl_jsDelete : ∀ (ks : List String) (cm : CodeMap) (k : String),
    jsGet (ks.foldl (fun c kk => jsDelete c kk) cm) k =
      if k ∈ ks then none else jsGet cm k := by
  intro ks
  induction ks with
  | nil => intro cm k; simp
  | cons kk t ih =>
    intro cm k
    show jsGet (t.foldl (fun c kk => jsDelete c kk) (jsDelete cm kk)) k = _
    rw [ih, jsGet_jsDelete]
    by_cases hkt : k ∈ t
    · simp [hkt]
    · by_cases hkk : k = kk <;> simp [hkt, hkk]

/-- Lookup after folding insertions with pairwise-distinct keys. -/
theorem jsGet_foldl_jsSet :
    ∀ (kvs : List (String × Option CodeBlock)) (cm : CodeMap) (k : String),
      (kvs.map (fun p => p.1)).Nodup →
      jsGet (kvs.foldl (fun c p => jsSet c p.1 p.2) cm) k =
        (match kvs.find? (fun p => decide (p.1 = k)) with
         | some p => p.2
         | none => jsGet cm k) := by
  intro kvs
  induction kvs with
  | nil => intro cm k _; simp
  | cons q t ih =>
    intro cm k hnd
    show jsGet (t.foldl (fun c p => jsSet c p.1 p.2) (jsSet cm q.1 q.2)) k = _
    have hnd' : q.1 ∉ t.map (fun p => p.1) ∧ (t.map (fun p => p.1)).Nodup := by
      rw [List.map_cons, List.nodup_cons] at hnd
      exact hnd
    rw [ih _ _ hnd'.2, List.find?_cons]
    by_cases hq : q.1 = k
    · have hknt : k ∉ t.map (fun p => p.1) := hq ▸ hnd'.1
      have hfind : t.find? (fun p => decide (p.1 = k)) = none := by
        rw [List.find?_eq_none]
        intro p hp
        simp only [decide_eq_true_eq]
        intro hh
        exact hknt (List.mem_map.2 ⟨p, hp, hh⟩)
      rw [hfind]
      simp [hq, jsGet_jsSet]
    · rw [decide_eq_false hq]
      rcases hfind : t.find? (fun p => decide (p.1 = k)) with _ | p
      · simp only [hfind]
        rw [jsGet_jsSet, if_neg (fun hh : k = q.1 => hq hh.symm)]
      · simp [hfind]

/-- `getNumericIds()`: the parsed values of all purely-numeric keys, sorted
ascending (`ids.sort((a, b) => a - b)` modelled by insertion sort). -/
def getNumericIds (cm : CodeMap) : List Nat :=
  List.insertionSort (· ≤ ·)
    (((cm.map (fun p => p.1)).filter (fun k => isNumericStr k)).map parseNat)

/-- Rewrite both endpoints of one arrow from `oldId` to `newId` (the
`arrows.forEach` body shared by the renumbering operations). -/
def rewriteArrowId (oldId newId : String) (a : ArrowRec) : ArrowRec :=
  { a with
      fromAnchor := if a.fromAnchor.block = oldId
        then { a.fromAnchor with block := newId } else a.fromAnchor,
      toAnchor := if a.toAnchor.block = oldId
        then { a.toAnchor with block := newId } else a.toAnchor }

/-- Lookup in the `idMapping` object built by `moveBlockToTop` (the `from`
ids of the moves are pairwise distinct in every reachable document, so
first-match lookup agrees with the JavaScript object). -/
def lookupRename (m : List (String × String)) (k : String) : Option String :=
  (m.find? (fun p => decide (p.1 = k))).map (fun p => p.2)

/-- Apply the `idMapping` to one arrow; `if (idMapping[...])` - a present
entry is truthy since every mapped-to id is a nonempty string. -/
def applyIdMapping (m : List (String × String)) (a : ArrowRec) : ArrowRec :=
  { a with
      fromAnchor :=
        match lookupRename m a.fromAnchor.block with
        | some newId => { a.fromAnchor with block := newId }
        | none => a.fromAnchor,
      toAnchor :=
        match lookupRename m a.toAnchor.block with
        | some newId => { a.toAnchor with block := newId }
        | none => a.toAnchor }

/-- The body of `moveBlockToTop` after the early returns: collect the moves
(with deep-cloned data; `JSON.parse(JSON.stringify(undefined))` throws, hence
`Option`), rewrite all arrows through the full id mapping, then apply all
deletions, then all insertions, then `recordAndSave`. -/
def moveBlockToTopGo (st : WvState) (blockId : String) (currentId : Nat)
    (maxIdStr : String) : Option WvState :=
  let largerIds := (getNumericIds st.codeMap).filter (fun id => decide (currentId < id))
  match jsGet st.codeMap blockId with
  | none => none
  | some selfData =>
    match mapMOpt (fun p =>
        (jsGet st.codeMap (natToString p.2)).map
          (fun d => (natToString p.2, natToString (currentId + p.1), d)))
        largerIds.enum with
    | none => none
    | some rest =>
      let moves := (blockId, maxIdStr, selfData) :: rest
      let idMapping := moves.map (fun mv => (mv.1, mv.2.1))
      let arrows2 := st.arrows.map (applyIdMapping idMapping)
      let cmDel := moves.foldl (fun cm mv => jsDelete cm mv.1) st.codeMap
      let cmIns := moves.foldl (fun cm mv => jsSet cm mv.2.1 (some mv.2.2)) cmDel
      some (recordAndSave { st with codeMap := cmIns, arrows := arrows2 })

/-- `moveBlockToTop(blockId)`: no-op on non-numeric ids and when already on
top.  `numericIds[numericIds.length - 1]` is `undefined` on an empty array
and `currentId >= undefined` is false, so that case falls through with the
target id rendering as the string `"undefined"`. -/
def moveBlockToTop (st : WvState) (blockId : String) : Option WvState :=
  if ¬ isNumericStr blockId then some st
  else
    match (getNumericIds st.codeMap).getLast? with
    | some maxId =>
      if parseNat blockId ≥ maxId then some st
      else moveBlockToTopGo st blockId (parseNat blockId) (natToString maxId)
    | none => moveBlockToTopGo st blockId (parseNat blockId) "undefined"

/-- The body of `moveBlockToBottom` after the early returns: stage the block
under `tempId`, shift every smaller id up by one (largest first), then move
the staged entry to the minimum id; all assignments read the *current* map,
so a colliding `tempId` silently overwrites. -/
def moveBlockToBottomGo (st : WvState) (blockId : String)
    (smallerIds : List Nat) (tempId newMinId : String) : WvState :=
  let cm1 := jsDelete (jsSet st.codeMap tempId (jsGet st.codeMap blockId)) blockId
  let arrows1 := st.arrows.map (rewriteArrowId blockId tempId)
  let stepped := smallerIds.reverse.foldl
    (fun (acc : CodeMap × List ArrowRec) id =>
      (jsDelete (jsSet acc.1 (natToString (id + 1)) (jsGet acc.1 (natToString id)))
        (natToString id),
       acc.2.map (rewriteArrowId (natToString id) (natToString (id + 1)))))
    (cm1, arrows1)
  let cm3 := jsDelete (jsSet stepped.1 newMinId (jsGet stepped.1 tempId)) tempId
  let arrows3 := stepped.2.map (rewriteArrowId tempId newMinId)
  recordAndSave { st with codeMap := cm3, arrows := arrows3 }

/-- `moveBlockToBottom(blockId)`: the temporary id is `String(minId + 1000)`.
`numericIds[0]` is `undefined` on an empty array: `currentId <= undefined` is
false, the temporary id renders as `"NaN"` and the new minimum as
`"undefined"`. -/
def moveBlockToBottom (st : WvState) (blockId : String) : WvState :=
  if ¬ isNumericStr blockId then st
  else
    let currentId := parseNat blockId
    let numericIds := getNumericIds st.codeMap
    match numericIds.head? with
    | some minId =>
      if currentId ≤ minId then st
      else
        moveBlockToBottomGo st blockId
          (numericIds.filter (fun id => decide (id < currentId)))
          (natToString (minId + 1000)) (natToString minId)
    | none =>
      moveBlockToBottomGo st blockId
        (numericIds.filter (fun id => decide (id < currentId))) "NaN" "undefined"

/-- Concrete blocks for the renumbering scenarios. -/
def blkOf (nm : String) : CodeBlock := ⟨nm, "a.py", 1, 2, 0, 0, 400, 300⟩

/-- The C4 failing document: numeric ids `1` and `1001`, so the "temporary"
id `String(minId + 1000)` collides with the real block id `1001`. -/
def stC4 : WvState :=
  { loadedDocW with
      codeMap := [("1", some (blkOf "1")), ("1001", some (blkOf "1001"))] }

/-- **C4.** The claim (and the code's own comment) promise a temporary id
that never collides.  On ids `{1, 1001}`, `moveToBottom("1001")` stages
through `"1001"` — the block's own id — so the record of block `1001` is
lost: the final map is `{"2" -> block 1, "1" -> undefined}` and no key holds
the block any more. -/
theorem claim_C4_code_bug :
    jsGet stC4.codeMap "1001" = some (blkOf "1001") ∧
      natToString (1 + 1000) = "1001" ∧
      (moveBlockToBottom stC4 "1001").codeMap =
        [("2", some (blkOf "1")), ("1", none)] ∧
      (∀ p ∈ (moveBlockToBottom stC4 "1001").codeMap, p.2 ≠ some (blkOf "1001")) := by
  refine ⟨rfl, by decide, by decide, by decide⟩

theorem get_map_nat {α β : Type} (f : α → β) (l : List α) (j : Nat)
    (hj : j < (l.map f).length) :
    (l.map f).get ⟨j, hj⟩ = f (l.get ⟨j, by simpa using hj⟩) := by
  simp

/-- The general shift property of `moveBlockToTop` on a well-formed document
(distinct keys, canonical numeric ids, no `undefined` entries): the moved
block lands on the previous maximum id, the `i`-th larger id moves down to
`currentId + i` (preserving relative order), and non-numeric ids as well as
ids below the moved one are untouched. -/
theorem moveBlockToTop_shift (st : WvState) (blockId : String) (b : CodeBlock) (maxN : Nat)
    (hNodup : (st.codeMap.map (fun p => p.1)).Nodup)
    (hCanon : ∀ p ∈ st.codeMap, isNumericStr p.1 = true → natToString (parseNat p.1) = p.1)
    (hAll : ∀ p ∈ st.codeMap, p.2.isSome = true)
    (hNum : isNumericStr blockId = true)
    (hGet : jsGet st.codeMap blockId = some b)
    (hMax : (getNumericIds st.codeMap).getLast? = some maxN)
    (hLess : parseNat blockId < maxN) :
    ∃ st', moveBlockToTop st blockId = some st' ∧
      jsGet st'.codeMap (natToString maxN) = some b ∧
      (∀ i (hi : i < ((getNumericIds st.codeMap).filter
          (fun id => decide (parseNat blockId < id))).length),
        jsGet st'.codeMap (natToString (parseNat blockId + i)) =
          jsGet st.codeMap (natToString
            (((getNumericIds st.codeMap).filter
              (fun id => decide (parseNat blockId < id))).get ⟨i, hi⟩))) ∧
      (∀ k, isNumericStr k = false → jsGet st'.codeMap k = jsGet st.codeMap k) ∧
      (∀ k, isNumericStr k = true → parseNat k < parseNat blockId →
        jsGet st'.codeMap k = jsGet st.codeMap k) := by
  set cur := parseNat blockId with hcurdef
  set ids := getNumericIds st.codeMap with hidsdef
  set larger := ids.filter (fun id => decide (cur < id)) with hlargerdef
  have hmemB : (blockId, some b) ∈ st.codeMap := jsGet_isSome_mem hGet
  have hBCanon : natToString cur = blockId := hCanon _ hmemB hNum
  have hperm : ids.Perm (((st.codeMap.map (fun p => p.1)).filter
      (fun k => isNumericStr k)).map parseNat) := by
    rw [hidsdef]
    exact List.perm_insertionSort _ _
  have hsorted : List.Sorted (fun a b => a ≤ b) ids := by
    rw [hidsdef]
    exact List.sorted_insertionSort _ _
  have hkeysnodup : ((st.codeMap.map (fun p => p.1)).filter
      (fun k => isNumericStr k)).Nodup := hNodup.filter _
  have hinj : ∀ x ∈ (st.codeMap.map (fun p => p.1)).filter (fun k => isNumericStr k),
      ∀ y ∈ (st.codeMap.map (fun p => p.1)).filter (fun k => isNumericStr k),
      parseNat x = parseNat y → x = y := by
    intro x hx y hy hxy
    have hx' := List.mem_filter.1 hx
    have hy' := List.mem_filter.1 hy
    have hcx : natToString (parseNat x) = x := by
      rcases List.mem_map.1 hx'.1 with ⟨p, hp, rfl⟩
      exact hCanon p hp hx'.2
    have hcy : natToString (parseNat y) = y := by
      rcases List.mem_map.1 hy'.1 with ⟨p, hp, rfl⟩
      exact hCanon p hp hy'.2
    rw [← hcx, ← hcy, hxy]
  have hidsnodup : ids.Nodup := hperm.symm.nodup (hkeysnodup.map_on hinj)
  have hmem_ids : ∀ x : Nat, x ∈ ids ↔
      ∃ k, (∃ v, (k, v) ∈ st.codeMap) ∧ isNumericStr k = true ∧ parseNat k = x := by
    intro x
    rw [hperm.mem_iff]
    constructor
    · intro hx
      rcases List.mem_map.1 hx with ⟨k, hk, rfl⟩
      have hk' := List.mem_filter.1 hk
      rcases List.mem_map.1 hk'.1 with ⟨p, hp, rfl⟩
      exact ⟨p.1, ⟨p.2, by rwa [Prod.mk.eta]⟩, hk'.2, rfl⟩
    · rintro ⟨k, ⟨v, hv⟩, hknum, rfl⟩
      exact List.mem_map.2 ⟨k, List.mem_filter.2
        ⟨List.mem_map.2 ⟨(k, v), hv, rfl⟩, hknum⟩, rfl⟩
  have hkey_of_ids : ∀ x ∈ ids, ∃ d : CodeBlock,
      (natToString x, some d) ∈ st.codeMap ∧
      jsGet st.codeMap (natToString x) = some d := by
    intro x hx
    rcases (hmem_ids x).1 hx with ⟨k, ⟨v, hv⟩, hknum, hparse⟩
    have hk : natToString x = k := by
      rw [← hparse]
      exact hCanon (k, v) hv hknum
    rcases v with _ | d
    · have := hAll (k, none) hv
      simp at this
    · refine ⟨d, hk ▸ hv, ?_⟩
      rw [hk]
      exact jsGet_of_mem hNodup hv
  have hmax_ub : ∀ x ∈ ids, x ≤ maxN := sorted_le_getLast hsorted hMax
  have hcur_mem : cur ∈ ids := by
    rw [hmem_ids]
    exact ⟨blockId, ⟨some b, hmemB⟩, hNum, rfl⟩
  have hlmem : ∀ x, x ∈ larger ↔ x ∈ ids ∧ cur < x := by
    intro x
    rw [hlargerdef, List.mem_filter]
    simp
  have hpl : List.Pairwise (fun a b => a < b) larger := by
    have h1 : List.Pairwise (fun a b => a ≤ b) larger := by
      rw [hlargerdef]
      exact hsorted.filter _
    have h2 : larger.Nodup := by
      rw [hlargerdef]
      exact hidsnodup.filter _
    exact (h1.and h2).imp (fun hab => lt_of_le_of_ne hab.1 hab.2)
  have hlarger_lower : ∀ i (hi : i < larger.length), cur + i < larger.get ⟨i, hi⟩ :=
    strict_sorted_get_lower hpl cur (fun x hx => ((hlmem x).1 hx).2)
  have hlarger_ub : ∀ i (hi : i < larger.length), larger.get ⟨i, hi⟩ ≤ maxN :=
    fun i hi => hmax_ub _ ((hlmem _).1 (larger.get_mem i hi)).1
  have hmaxN_gt : ∀ i (hi : i < larger.length), cur + i < maxN :=
    fun i hi => lt_of_lt_of_le (hlarger_lower i hi) (hlarger_ub i hi)
  have hf_some : ∀ p ∈ larger.enum,
      ((fun p : Nat × Nat =>
        (jsGet st.codeMap (natToString p.2)).map
          (fun d => (natToString p.2, natToString (cur + p.1), d))) p).isSome = true := by
    intro p hp
    have hp2 : p.2 ∈ larger := by
      rcases List.mem_iff_get.1 hp with ⟨⟨j, hj⟩, hgetp⟩
      rw [List.get_enum] at hgetp
      rw [← hgetp]
      exact larger.get_mem _ _
    rcases hkey_of_ids p.2 ((hlmem p.2).1 hp2).1 with ⟨d, _, hd⟩
    simp [hd]
  obtain ⟨rest, hrest⟩ := mapMOpt_eq_some _ _ hf_some
  have hrestlen : rest.length = larger.length := by
    rw [mapMOpt_length hrest, List.enum_length]
  have hrest_get : ∀ j (hj : j < larger.length) (hrj : j < rest.length),
      (jsGet st.codeMap (natToString (larger.get ⟨j, hj⟩))).map
        (fun d => (natToString (larger.get ⟨j, hj⟩), natToString (cur + j), d)) =
      some (rest.get ⟨j, hrj⟩) := by
    intro j hj hrj
    have hjlen : j < larger.enum.length := by
      rw [List.enum_length]
      exact hj
    have h1 := mapMOpt_get hrest j hjlen hrj
    rw [List.get_enum] at h1
    exact h1
  have hrest_parts : ∀ j (hj : j < larger.length) (hrj : j < rest.length),
      (rest.get ⟨j, hrj⟩).1 = natToString (larger.get ⟨j, hj⟩) ∧
      (rest.get ⟨j, hrj⟩).2.1 = natToString (cur + j) ∧
      jsGet st.codeMap (natToString (larger.get ⟨j, hj⟩)) =
        some (rest.get ⟨j, hrj⟩).2.2 := by
    intro j hj hrj
    have h1 := hrest_get j hj hrj
    rcases hd : jsGet st.codeMap (natToString (larger.get ⟨j, hj⟩)) with _ | d
    · rw [hd] at h1
      exact absurd h1 (by simp)
    · rw [hd] at h1
      simp only [Option.map_some'] at h1
      have h2 := Option.some_inj.1 h1
      exact ⟨by rw [← h2], by rw [← h2], by rw [← h2]⟩
  have hto_j : ∀ j (hj : j < rest.length), (rest.get ⟨j, hj⟩).2.1 =
      natToString (cur + j) := by
    intro j hj
    have hj2 : j < larger.length := by
      rw [← hrestlen]
      exact hj
    exact (hrest_parts j hj2 hj).2.1
  have hfrom_j : ∀ j (hj : j < rest.length) (hj2 : j < larger.length),
      (rest.get ⟨j, hj⟩).1 = natToString (larger.get ⟨j, hj2⟩) :=
    fun j hj hj2 => (hrest_parts j hj2 hj).1
  have htos_nodup : (rest.map (fun mv => mv.2.1)).Nodup := by
    show List.Pairwise (fun a b => a ≠ b) _
    rw [List.pairwise_iff_get]
    intro i j hij
    rcases i with ⟨i, hi2⟩
    rcases j with ⟨j, hj2⟩
    have hij2 : i < j := hij
    rw [get_map_nat, get_map_nat, hto_j i (by simpa using hi2), hto_j j (by simpa using hj2)]
    intro heq
    have := natToString_injective heq
    omega
  have hkvskeys_nodup : ((((blockId, natToString maxN, b) :: rest).map
      (fun mv => (mv.2.1, some mv.2.2))).map (fun p => p.1)).Nodup := by
    rw [List.map_map]
    have hmapeq : (((blockId, natToString maxN, b) :: rest).map
        ((fun p : String × Option CodeBlock => p.1) ∘ (fun mv => (mv.2.1, some mv.2.2)))) =
        natToString maxN :: rest.map (fun mv => mv.2.1) := by
      rw [List.map_cons]
      rfl
    rw [hmapeq, List.nodup_cons]
    refine ⟨?_, htos_nodup⟩
    intro hmem
    rcases List.mem_iff_get.1 hmem with ⟨⟨j, hj⟩, hgetj⟩
    rw [get_map_nat, hto_j j (by simpa using hj)] at hgetj
    have heq := natToString_injective hgetj
    have hj2 : j < larger.length := by
      rw [← hrestlen]
      simpa using hj
    have := hmaxN_gt j hj2
    omega
  have hchar : ∀ k, jsGet
      (((blockId, natToString maxN, b) :: rest).foldl
        (fun cm mv => jsSet cm mv.2.1 (some mv.2.2))
        (((blockId, natToString maxN, b) :: rest).foldl
          (fun cm mv => jsDelete cm mv.1) st.codeMap)) k =
      (match (((blockId, natToString maxN, b) :: rest).map
          (fun mv => (mv.2.1, some mv.2.2))).find? (fun p => decide (p.1 = k)) with
       | some p => p.2
       | none =>
         if k ∈ ((blockId, natToString maxN, b) :: rest).map (fun mv => mv.1) then none
         else jsGet st.codeMap k) := by
    intro k
    have hbridge : (((blockId, natToString maxN, b) :: rest).foldl
        (fun cm mv => jsSet cm mv.2.1 (some mv.2.2))
        (((blockId, natToString maxN, b) :: rest).foldl
          (fun cm mv => jsDelete cm mv.1) st.codeMap)) =
        ((((blockId, natToString maxN, b) :: rest).map
          (fun mv => (mv.2.1, some mv.2.2))).foldl
          (fun c p => jsSet c p.1 p.2)
          ((((blockId, natToString maxN, b) :: rest).map (fun mv => mv.1)).foldl
            (fun c kk => jsDelete c kk) st.codeMap)) := by
      rw [List.foldl_map, List.foldl_map]
    rw [hbridge, jsGet_foldl_jsSet _ _ _ hkvskeys_nodup, jsGet_foldl_jsDelete]
  have hkvs_mem : ∀ p ∈ (((blockId, natToString maxN, b) :: rest).map
      (fun mv => (mv.2.1, some mv.2.2))),
      p.1 = natToString maxN ∨
        ∃ j2, ∃ _ : j2 < larger.length, p.1 = natToString (cur + j2) := by
    intro p hp
    rw [List.map_cons] at hp
    rcases List.mem_cons.1 hp with rfl | hp2
    · left
      rfl
    · rcases List.mem_iff_get.1 hp2 with ⟨⟨j, hj⟩, hpj⟩
      right
      have hjr : j < rest.length := by simpa using hj
      refine ⟨j, by rwa [← hrestlen], ?_⟩
      rw [← hpj, get_map_nat]
      exact hto_j j hjr
  have hfroms_mem : ∀ f ∈ (((blockId, natToString maxN, b) :: rest).map
      (fun mv => mv.1)),
      f = blockId ∨
        ∃ j2, ∃ hj2 : j2 < larger.length, f = natToString (larger.get ⟨j2, hj2⟩) := by
    intro f hf
    rw [List.map_cons] at hf
    rcases List.mem_cons.1 hf with rfl | hf2
    · left
      rfl
    · rcases List.mem_iff_get.1 hf2 with ⟨⟨j, hj⟩, hfj⟩
      right
      have hjr : j < rest.length := by simpa using hj
      have hj2 : j < larger.length := by rwa [← hrestlen]
      refine ⟨j, hj2, ?_⟩
      rw [← hfj, get_map_nat]
      exact hfrom_j j hjr hj2
  have hNumTrue : ¬¬(isNumericStr blockId = true) := by
    rw [hNum]
    simp
  have hstep : moveBlockToTop st blockId =
      moveBlockToTopGo st blockId cur (natToString maxN) := by
    unfold moveBlockToTop
    rw [if_neg hNumTrue, ← hidsdef, ← hcurdef]
    simp only [hMax]
    rw [if_neg (not_le.mpr hLess)]
  refine ⟨recordAndSave
      { st with
          codeMap := ((blockId, natToString maxN, b) :: rest).foldl
            (fun cm mv => jsSet cm mv.2.1 (some mv.2.2))
            (((blockId, natToString maxN, b) :: rest).foldl
              (fun cm mv => jsDelete cm mv.1) st.codeMap),
          arrows := st.arrows.map (applyIdMapping
            (((blockId, natToString maxN, b) :: rest).map (fun mv => (mv.1, mv.2.1)))) },
    ?_, ?_, ?_, ?_, ?_⟩
  · rw [hstep]
    unfold moveBlockToTopGo
    rw [← hidsdef, ← hlargerdef]
    simp only [hGet, hrest]
  · rw [recordAndSave_codeMap, hchar]
    rw [List.map_cons, List.find?_cons]
    simp
  · intro i hi
    rw [recordAndSave_codeMap, hchar]
    have hri : i < rest.length := by
      rw [hrestlen]
      exact hi
    have hkget0 : ((((blockId, natToString maxN, b) :: rest).map
        (fun mv => (mv.2.1, some mv.2.2))).get ⟨0, by simp⟩) =
        (natToString maxN, some b) := rfl
    have hkgetS : ∀ j (hj : j < rest.length),
        ((((blockId, natToString maxN, b) :: rest).map
          (fun mv => (mv.2.1, some mv.2.2))).get
            ⟨j + 1, by simp only [List.length_map, List.length_cons]; omega⟩) =
        ((rest.get ⟨j, hj⟩).2.1, some (rest.get ⟨j, hj⟩).2.2) := by
      intro j hj
      show ((rest.map (fun mv => (mv.2.1, some mv.2.2))).get
        ⟨j, by simpa using hj⟩) = _
      rw [get_map_nat]
    have hlenkvs : (((blockId, natToString maxN, b) :: rest).map
        (fun mv => (mv.2.1, some mv.2.2))).length = rest.length + 1 := by
      simp
    have huniq : ∀ j (hj : j < (((blockId, natToString maxN, b) :: rest).map
        (fun mv => (mv.2.1, some mv.2.2))).length),
        ((fun p : String × Option CodeBlock =>
          decide (p.1 = natToString (cur + i)))
          ((((blockId, natToString maxN, b) :: rest).map
            (fun mv => (mv.2.1, some mv.2.2))).get ⟨j, hj⟩) = true ↔ j = i + 1) := by
      intro j hj
      cases j with
      | zero =>
        rw [hkget0]
        simp only [decide_eq_true_eq]
        constructor
        · intro heq
          have := natToString_injective heq
          have := hmaxN_gt i hi
          omega
        · omega
      | succ j2 =>
        have hj2 : j2 < rest.length := by
          rw [hlenkvs] at hj
          omega
        rw [hkgetS j2 hj2]
        simp only [decide_eq_true_eq]
        rw [hto_j j2 hj2]
        constructor
        · intro heq
          have := natToString_injective heq
          omega
        · intro heq
          have hji : j2 = i := by omega
          rw [hji]
    have hfind := find?_eq_some_of_unique
      (((blockId, natToString maxN, b) :: rest).map (fun mv => (mv.2.1, some mv.2.2)))
      (fun p => decide (p.1 = natToString (cur + i))) (i + 1)
      (by rw [hlenkvs]; omega) huniq
    simp only [hfind]
    rw [hkgetS i hri]
    rw [(hrest_parts i hi hri).2.2]
  · intro k hknum
    rw [recordAndSave_codeMap, hchar]
    have hfnone : (((blockId, natToString maxN, b) :: rest).map
        (fun mv => (mv.2.1, some mv.2.2))).find? (fun p => decide (p.1 = k)) = none := by
      rw [List.find?_eq_none]
      intro p hp
      simp only [decide_eq_true_eq]
      intro hpk
      rcases hkvs_mem p hp with h | ⟨j2, hj2, h⟩
      · have hk : k = natToString maxN := by rw [← hpk, h]
        rw [hk, isNumericStr_natToString] at hknum
        simp at hknum
      · have hk : k = natToString (cur + j2) := by rw [← hpk, h]
        rw [hk, isNumericStr_natToString] at hknum
        simp at hknum
    simp only [hfnone]
    have hnf : ¬(k ∈ ((blockId, natToString maxN, b) :: rest).map
        (fun mv => mv.1)) := by
      intro hmem
      rcases hfroms_mem k hmem with h | ⟨j2, hj2, h⟩
      · rw [h, hNum] at hknum
        simp at hknum
      · rw [h, isNumericStr_natToString] at hknum
        simp at hknum
    rw [if_neg hnf]
  · intro k hknum hklt
    rw [recordAndSave_codeMap, hchar]
    have hfnone : (((blockId, natToString maxN, b) :: rest).map
        (fun mv => (mv.2.1, some mv.2.2))).find? (fun p => decide (p.1 = k)) = none := by
      rw [List.find?_eq_none]
      intro p hp
      simp only [decide_eq_true_eq]
      intro hpk
      rcases hkvs_mem p hp with h | ⟨j2, hj2, h⟩
      · have hk : k = natToString maxN := by rw [← hpk, h]
        have hpn : parseNat k = maxN := by rw [hk, parseNat_natToString]
        omega
      · have hk : k = natToString (cur + j2) := by rw [← hpk, h]
        have hpn : parseNat k = cur + j2 := by rw [hk, parseNat_natToString]
        omega
    simp only [hfnone]
    have hnf : ¬(k ∈ ((blockId, natToString maxN, b) :: rest).map
        (fun mv => mv.1)) := by
      intro hmem
      rcases hfroms_mem k hmem with h | ⟨j2, hj2, h⟩
      · have hpn : parseNat k = cur := by rw [h]
        omega
      · have hpn : parseNat k = larger.get ⟨j2, hj2⟩ := by
          rw [h, parseNat_natToString]
        have hgt := ((hlmem _).1 (larger.get_mem j2 hj2)).2
        omega
    rw [if_neg hnf]


/-- Concrete `{1,3,4,7}` document with an arrow out of block `"3"`, for C3. -/
def stC3 : WvState :=
  { loadedDocW with
      codeMap := [("1", some (blkOf "1")), ("3", some (blkOf "3")),
                  ("4", some (blkOf "4")), ("7", some (blkOf "7"))],
      arrows := [⟨⟨"3", 1, 2⟩, ⟨"1", 3, 4⟩, some "#ff0000", some 1⟩] }

/-- The expected result of `moveToTop("3")` on `stC3`: block `"3"` is now at
id `"7"`, blocks `"4"` and `"7"` shifted down to `"3"` and `"4"`, id `"1"`
untouched, the arrow endpoint rewritten from `"3"` to `"7"`, and one history
snapshot of the new document appended. -/
def stC3sh : WvState :=
  { loadedDocW with
      codeMap := [("1", some (blkOf "1")), ("7", some (blkOf "3")),
                  ("3", some (blkOf "4")), ("4", some (blkOf "7"))],
      arrows := [⟨⟨"7", 1, 2⟩, ⟨"1", 3, 4⟩, some "#ff0000", some 1⟩],
      history := [⟨"CodeMap", [], []⟩,
        ⟨"CodeMap",
         [("1", some (blkOf "1")), ("7", some (blkOf "3")),
          ("3", some (blkOf "4")), ("4", some (blkOf "7"))],
         [⟨⟨"7", 1, 2⟩, ⟨"1", 3, 4⟩, some "#ff0000", some 1⟩]⟩],
      historyIndex := 1 }

/-- **C3.** On the document with numeric ids `{1,3,4,7}`, `moveToTop("3")`
puts the block originally at `"3"` at id `"7"` (the prior maximum), shifts
the blocks at `"4"` and `"7"` down to `"3"` and `"4"`, leaves `"1"`
untouched and rewrites the arrow endpoint `"3"` to `"7"`; in general (second
conjunct) on any well-formed document every numeric id greater than the
moved block's id shifts down by one slot, preserving relative order, and the
implementation computes the mapping first, then applies all deletions, then
all insertions (visible in the definition of `moveBlockToTopGo`). -/
theorem claim_C3 :
    moveBlockToTop stC3 "3" = some stC3sh ∧
      (∀ (st : WvState) (blockId : String) (b : CodeBlock) (maxN : Nat),
        (st.codeMap.map (fun p => p.1)).Nodup →
        (∀ p ∈ st.codeMap, isNumericStr p.1 = true →
          natToString (parseNat p.1) = p.1) →
        (∀ p ∈ st.codeMap, p.2.isSome = true) →
        isNumericStr blockId = true →
        jsGet st.codeMap blockId = some b →
        (getNumericIds st.codeMap).getLast? = some maxN →
        parseNat blockId < maxN →
        ∃ st', moveBlockToTop st blockId = some st' ∧
          jsGet st'.codeMap (natToString maxN) = some b ∧
          (∀ i (hi : i < ((getNumericIds st.codeMap).filter
              (fun id => decide (parseNat blockId < id))).length),
            jsGet st'.codeMap (natToString (parseNat blockId + i)) =
              jsGet st.codeMap (natToString
                (((getNumericIds st.codeMap).filter
                  (fun id => decide (parseNat blockId < id))).get ⟨i, hi⟩))) ∧
          (∀ k, isNumericStr k = false → jsGet st'.codeMap k = jsGet st.codeMap k) ∧
          (∀ k, isNumericStr k = true → parseNat k < parseNat blockId →
            jsGet st'.codeMap k = jsGet st.codeMap k)) :=
  ⟨by decide,
   fun st blockId b maxN h1 h2 h3 h4 h5 h6 h7 =>
     moveBlockToTop_shift st blockId b maxN h1 h2 h3 h4 h5 h6 h7⟩

theorem claim_C3_witness :
    ((stC3.codeMap.map (fun p => p.1)).Nodup ∧
      (∀ p ∈ stC3.codeMap, isNumericStr p.1 = true →
        natToString (parseNat p.1) = p.1) ∧
      (∀ p ∈ stC3.codeMap, p.2.isSome = true) ∧
      isNumericStr "3" = true ∧
      jsGet stC3.codeMap "3" = some (blkOf "3") ∧
      (getNumericIds stC3.codeMap).getLast? = some 7 ∧
      parseNat "3" < 7) ∧
      (∃ st', moveBlockToTop stC3 "3" = some st' ∧
        jsGet st'.codeMap (natToString 7) = some (blkOf "3") ∧
        (∀ i (hi : i < ((getNumericIds stC3.codeMap).filter
            (fun id => decide (parseNat "3" < id))).length),
          jsGet st'.codeMap (natToString (parseNat "3" + i)) =
            jsGet stC3.codeMap (natToString
              (((getNumericIds stC3.codeMap).filter
                (fun id => decide (parseNat "3" < id))).get ⟨i, hi⟩))) ∧
        (∀ k, isNumericStr k = false → jsGet st'.codeMap k = jsGet stC3.codeMap k) ∧
        (∀ k, isNumericStr k = true → parseNat k < parseNat "3" →
          jsGet st'.codeMap k = jsGet stC3.codeMap k)) :=
  ⟨⟨by decide, by decide, by decide, by decide, by decide, by decide, by decide⟩,
   claim_C3.2 stC3 "3" (blkOf "3") 7 (by decide) (by decide) (by decide)
     (by decide) (by decide) (by decide) (by decide)⟩
